import Mathlib

/-!
Verification of the stniche niche-discovery engine (`stniche/stniche.py`).

The development shallowly embeds the core algorithms of the module:
the per-sample hexagonal adjacency statistics and group comparison
(`compute_groupwise_adjacency_matrix`), the geometric signature and its
comparison (`geometric_signature`, `compare_structures`), the greedy
representative-based motif grouping, the one-node motif expansion
(`expand_structure`) and the iterative expansion loop
(`iterative_structure_analysis`).

Conventions of the embedding:
* grid coordinates are integers (`array_row`, `array_col`), cluster and
  group labels are naturals, sample ids are naturals;
* fractional statistics are rationals; the geometric signature, which the
  source computes with floating-point Euclidean norms, is modelled over
  the reals, with `numpy` rounding modelled by `round`;
* the external rank-sum test (`scipy.stats.mannwhitneyu`) is an opaque
  parameter of the embedding: every theorem below holds for an arbitrary
  p-value oracle, which is exactly the dependence the source has on it;
* Python dicts are modelled as association lists in insertion order, and
  `dict` comprehensions built with later-key-wins semantics are modelled
  by a reversed `find?`.
-/

namespace StNiche

/-! ### Lexical model of the source file (claim C1)

Every `\"\"\"` token of `stniche/stniche.py` stands alone on its own
(indented) line, and the file contains no `'''` token and no other
multi-line string form, so CPython's tokenizer state for this file is
fully described by the alternating open/close sequence of these tokens.
The line numbers below are the complete list of lines carrying a
`\"\"\"` token, read off the source file. -/

def tripleQuoteLines : List ℕ :=
  [33, 86, 216, 250, 383, 453, 607, 641, 735, 756, 758, 833, 847, 988,
   1056, 1100, 1144, 1220, 1267, 1327, 1377, 1487, 1528]

/-- The tokenizer's string-state after consuming the tokens: `false` means
outside a string, `true` means inside; each triple-quote token flips it. -/
def lexState (tokens : List ℕ) : Bool :=
  tokens.foldl (fun st _ => !st) false

/-- Pair the tokens into string spans: token at even position (0-based)
opens a string, the following token closes it.  An unpaired trailing
token opens a string that never closes. -/
def stringSpans : List ℕ → List (ℕ × ℕ)
  | o :: c :: rest => (o, c) :: stringSpans rest
  | _ => []

/-- A line is inside a triple-quoted string of the file iff it lies
strictly between the opener and closer of some span. -/
def lineInString (tokens : List ℕ) (line : ℕ) : Bool :=
  (stringSpans tokens).any (fun oc => oc.1 < line ∧ line < oc.2)

/-- The set of lines of `tripleQuoteLines` after which the unpaired
trailing opener leaves the tokenizer inside a string forever. -/
def trailingOpener (tokens : List ℕ) : Option ℕ :=
  if tokens.length % 2 = 1 then tokens.getLast? else none

/-- C1: the source file carries 23 triple-quote tokens in total, an odd
number, so the tokenizer finishes the file still inside a string (the
string opened by the token at line 1528 is never closed) and the module
cannot be tokenized, parsed or loaded.  The string literal opened at
line 758 inside `analyze_structure_groups` is closed only by the token
at line 833 that was meant to open `expand_structure`'s docstring, so
every line strictly between them — the statistical body of
`analyze_structure_groups` (759–829) and the `def expand_structure`
header (831–832) — is string data rather than code, and each later
triple quote plays the opposite of its intended docstring role. -/
theorem source_triple_quotes_unbalanced :
    tripleQuoteLines.length = 23 ∧
    lexState tripleQuoteLines = true ∧
    trailingOpener tripleQuoteLines = some 1528 ∧
    (758, 833) ∈ stringSpans tripleQuoteLines ∧
    (List.range' 759 74).all (fun l => lineInString tripleQuoteLines l) = true := by
  decide

/-! ### Data model

`adata.obs` restricted to the columns the engine reads: row/col grid
coordinates, sample id, cluster label (`leiden`) and condition-group
label (`class`).  Ids and labels are naturals standing for the source's
categorical strings. -/

structure SpotRow where
  sample : ℕ
  row : ℤ
  col : ℤ
  label : ℕ
  grp : ℕ
deriving DecidableEq, Repr

abbrev Adata := List SpotRow

/-- pandas `unique()`: values in first-occurrence order. -/
def dedupFirst {α : Type} [DecidableEq α] (l : List α) : List α :=
  l.foldl (fun acc x => if x ∈ acc then acc else acc ++ [x]) []

/-- `spot_data[sample_key].unique()`. -/
def sampleIds (A : Adata) : List ℕ := dedupFirst (A.map (·.sample))

/-- `spot_data[spot_data[sample_key] == sample]`. -/
def sampleRows (A : Adata) (s : ℕ) : List SpotRow :=
  A.filter (fun r => decide (r.sample = s))

/-- `spot_dict = {(row, col): cl for ...}`: a Python dict comprehension,
so a later row with the same coordinates overwrites an earlier one. -/
def spotLookup (A : Adata) (s : ℕ) (p : ℤ × ℤ) : Option ℕ :=
  ((sampleRows A s).reverse.find? (fun r => decide (r.row = p.1 ∧ r.col = p.2))).map
    (·.label)

/-- The dict's key sequence: coordinates in first-occurrence order. -/
def sampleCoords (A : Adata) (s : ℕ) : List (ℤ × ℤ) :=
  dedupFirst ((sampleRows A s).map (fun r => (r.row, r.col)))

/-- The fixed 8-vector hexagonal neighbourhood. -/
def neighborsOffset : List (ℤ × ℤ) :=
  [(-1, 0), (1, 0), (0, -2), (0, 2), (-1, -1), (1, -1), (-1, 1), (1, 1)]

/-- Number of offsets from `p` that land on a spot of label `l2`. -/
def neighborLabelCount (A : Adata) (s : ℕ) (p : ℤ × ℤ) (l2 : ℕ) : ℕ :=
  (neighborsOffset.filter
    (fun d => decide (spotLookup A s (p.1 + d.1, p.2 + d.2) = some l2))).length

/-- Number of offsets from `p` that land on any spot of the sample. -/
def neighborTotal (A : Adata) (s : ℕ) (p : ℤ × ℤ) : ℕ :=
  (neighborsOffset.filter
    (fun d => (spotLookup A s (p.1 + d.1, p.2 + d.2)).isSome)).length

/-- Coordinates of the dict's spots bearing label `l1`. -/
def labelCoords (A : Adata) (s : ℕ) (l1 : ℕ) : List (ℤ × ℤ) :=
  (sampleCoords A s).filter (fun p => decide (spotLookup A s p = some l1))

/-- `adj_counts[l1][l2]`: over every spot of the dict labelled `l1`,
count the neighbours present in the dict labelled `l2`. -/
def adjCount (A : Adata) (s : ℕ) (l1 l2 : ℕ) : ℕ :=
  ((labelCoords A s l1).map (fun p => neighborLabelCount A s p l2)).sum

/-- The row labels of `adj_df`: the dict's labels, one row per label
that labels at least one spot. -/
def rowLabels (A : Adata) (s : ℕ) : List ℕ :=
  dedupFirst ((sampleCoords A s).filterMap (spotLookup A s))

/-- `leiden_counts[l]`: `value_counts` over the sample's observation
rows. -/
def spotCount (A : Adata) (s : ℕ) (l : ℕ) : ℕ :=
  ((sampleRows A s).filter (fun r => decide (r.label = l))).length

/-- One entry of the per-sample normalized adjacency matrix after
    `adj_df.loc[cl] /= leiden_counts[cl]` and the zero-filling reindex
onto the unified label set: rows exist only for the dict's labels, and
missing entries are 0. -/
def adjEntry (A : Adata) (s : ℕ) (l1 l2 : ℕ) : ℚ :=
  if l1 ∈ rowLabels A s then (adjCount A s l1 l2 : ℚ) / (spotCount A s l1 : ℚ)
  else 0

/-- `all_leiden_classes`: the sorted union of the column labels and the
row labels over all samples.  Every column label of a sample is also a
row label of that sample (a neighbour is itself a spot of the dict), so
the union is the sorted set of labels observed in any sample. -/
def allLabels (A : Adata) : List ℕ :=
  ((sampleIds A).flatMap (fun s => rowLabels A s)).dedup.insertionSort (· ≤ ·)

/-- `adata.obs[adata.obs[group_key] == group][sample_key].unique()`. -/
def groupSamples (A : Adata) (g : ℕ) : List ℕ :=
  dedupFirst ((A.filter (fun r => decide (r.grp = g))).map (·.sample))

/-- `data[:, i, j]`: the vector of matrix values of one label pair
across a group's samples. -/
def pairValues (A : Adata) (g : ℕ) (l1 l2 : ℕ) : List ℚ :=
  (groupSamples A g).map (fun s => adjEntry A s l1 l2)

/-- `np.mean` of a vector. -/
def listMean (l : List ℚ) : ℚ := l.sum / l.length

/-- The per-pair p-value: the two-group test runs only when both value
vectors contain a nonzero (`np.any(v1) and np.any(v2)`); otherwise the
pair gets p = 1 without running the test.  `mw2` is the opaque
`mannwhitneyu(..., alternative='two-sided')` p-value oracle. -/
def pairP (mw2 : List ℚ → List ℚ → ℚ) (A : Adata) (g1 g2 l1 l2 : ℕ) : ℚ :=
  if (pairValues A g1 l1 l2).any (fun v => decide (v ≠ 0)) ∧
     (pairValues A g2 l1 l2).any (fun v => decide (v ≠ 0)) then
    mw2 (pairValues A g1 l1 l2) (pairValues A g2 l1 l2)
  else 1

/-! ### Benjamini–Hochberg correction (`multipletests(..., method='fdr_bh')`) -/

/-- Running minimum from the right:
`np.minimum.accumulate(xs[::-1])[::-1]`. -/
def cumMinRev : List ℚ → List ℚ
  | [] => []
  | p :: rest =>
    match cumMinRev rest with
    | [] => [p]
    | m :: t => min p m :: m :: t

/-- `fdr_bh`: sort the p-values ascending, divide the k-th smallest by
k/n, take the running minimum from the largest down, clip at 1, and
restore the original order. -/
def bhAdjust (ps : List ℚ) : List ℚ :=
  let n := ps.length
  let sortedPairs := ps.enum.insertionSort (fun a b => a.2 ≤ b.2)
  let raws := sortedPairs.enum.map
    (fun ke => (ke.2.1, ke.2.2 * (n : ℚ) / ((ke.1 : ℚ) + 1)))
  let corr := (cumMinRev (raws.map (·.2))).map (fun q => min q 1)
  let pairs := (raws.map (·.1)).zip corr
  (List.range n).map (fun i => ((pairs.find? (fun ip => decide (ip.1 = i))).map (·.2)).getD 1)

/-! ### The pairwise statistics table -/

structure PairRow where
  l1 : ℕ
  l2 : ℕ
  mean1 : ℚ
  mean2 : ℚ
  p : ℚ
  fdr : ℚ
deriving DecidableEq, Repr

/-- `fdr_results`: one row per ordered pair of the doubly nested loop
over `all_leiden_classes`, carrying the two group means, the raw
p-value and its BH-corrected value. -/
def fdrResults (mw2 : List ℚ → List ℚ → ℚ) (A : Adata) (g1 g2 : ℕ) : List PairRow :=
  let pairs := allLabels A ×ˢ allLabels A
  let ps := pairs.map (fun q => pairP mw2 A g1 g2 q.1 q.2)
  (pairs.zip (bhAdjust ps)).map (fun qf =>
    { l1 := qf.1.1, l2 := qf.1.2,
      mean1 := listMean (pairValues A g1 qf.1.1 qf.1.2),
      mean2 := listMean (pairValues A g2 qf.1.1 qf.1.2),
      p := pairP mw2 A g1 g2 qf.1.1 qf.1.2,
      fdr := qf.2 })

/-- `fdr_filtered`: corrected p below the cutoff and non-diagonal. -/
def fdrFiltered (mw2 : List ℚ → List ℚ → ℚ) (A : Adata) (g1 g2 : ℕ) (Pvalue : ℚ) :
    List PairRow :=
  (fdrResults mw2 A g1 g2).filter (fun r => decide (r.fdr < Pvalue ∧ r.l1 ≠ r.l2))

/-- The `f"{g}_mean"` column selector. -/
def meanFor (f g1 : ℕ) (r : PairRow) : ℚ := if f = g1 then r.mean1 else r.mean2

/-- `other_group = [g for g in groups if g != focus_group][0]`. -/
def otherOf (f g1 g2 : ℕ) : ℕ := if g1 ≠ f then g1 else g2

/-- `focus_filtered`: among the FDR-retained non-self pairs, those whose
focus-group mean exceeds `enrichment_fold` times the other group's mean
and exceeds the mean of the focus-group means over the FDR-retained
non-self pairs. -/
def focusFiltered (mw2 : List ℚ → List ℚ → ℚ) (A : Adata) (g1 g2 f : ℕ)
    (enrichmentFold Pvalue : ℚ) : List PairRow :=
  let fdrF := fdrFiltered mw2 A g1 g2 Pvalue
  let m := listMean (fdrF.map (meanFor f g1))
  fdrF.filter (fun r =>
    decide (meanFor f g1 r > enrichmentFold * meanFor (otherOf f g1 g2) g1 r ∧
            meanFor f g1 r > m))

/-- `compute_groupwise_adjacency_matrix` for a two-group comparison,
from the statistical test on: the second return value.  The focus-group
check `if focus_group in groups: ... else: raise ValueError` runs on
every call; `None` is never a member of the group-label pair, so an
omitted focus group also reaches the `raise`. -/
def computeGroupwiseAdjacencyMatrix (mw2 : List ℚ → List ℚ → ℚ) (A : Adata)
    (g1 g2 : ℕ) (focusGroup : Option ℕ) (enrichmentFold Pvalue : ℚ) :
    Except String (List PairRow) :=
  match focusGroup with
  | some f =>
    if f = g1 ∨ f = g2 then
      .ok (focusFiltered mw2 A g1 g2 f enrichmentFold Pvalue)
    else
      .error "focus group is not in the provided groups"
  | none => .error "focus group is not in the provided groups"

/-! ### Facts about the per-sample adjacency matrices -/

theorem mem_dedupFirst {α : Type} [DecidableEq α] {l : List α} {a : α} :
    a ∈ dedupFirst l ↔ a ∈ l := by
  have h : ∀ (l acc : List α),
      a ∈ l.foldl (fun acc x => if x ∈ acc then acc else acc ++ [x]) acc ↔
        a ∈ acc ∨ a ∈ l := by
    intro l
    induction l with
    | nil => intro acc; simp
    | cons x t ih =>
      intro acc
      simp only [List.foldl_cons]
      by_cases hx : x ∈ acc
      · rw [if_pos hx, ih]
        simp only [List.mem_cons]
        constructor
        · rintro (h | h)
          · exact Or.inl h
          · exact Or.inr (Or.inr h)
        · rintro (h | h | h)
          · exact Or.inl h
          · exact Or.inl (h ▸ hx)
          · exact Or.inr h
      · rw [if_neg hx, ih]
        simp only [List.mem_append, List.mem_singleton, List.mem_cons]
        tauto
  rw [dedupFirst, h l []]
  simp

theorem nodup_dedupFirst {α : Type} [DecidableEq α] (l : List α) :
    (dedupFirst l).Nodup := by
  have h : ∀ (l acc : List α), acc.Nodup →
      (l.foldl (fun acc x => if x ∈ acc then acc else acc ++ [x]) acc).Nodup := by
    intro l
    induction l with
    | nil => intro acc hacc; simpa using hacc
    | cons x t ih =>
      intro acc hacc
      simp only [List.foldl_cons]
      by_cases hx : x ∈ acc
      · rw [if_pos hx]; exact ih _ hacc
      · rw [if_neg hx]
        exact ih _ (by simp [List.nodup_append, hacc, hx])
  exact h l [] List.nodup_nil

theorem mem_sampleRows {A : Adata} {s : ℕ} {r : SpotRow} :
    r ∈ sampleRows A s ↔ r ∈ A ∧ r.sample = s := by
  simp [sampleRows]

theorem mem_sampleCoords {A : Adata} {s : ℕ} {p : ℤ × ℤ} :
    p ∈ sampleCoords A s ↔ ∃ r ∈ sampleRows A s, (r.row, r.col) = p := by
  simp [sampleCoords, mem_dedupFirst]

theorem spotLookup_isSome {A : Adata} {s : ℕ} {p : ℤ × ℤ} :
    (spotLookup A s p).isSome ↔ p ∈ sampleCoords A s := by
  rw [mem_sampleCoords]
  simp only [spotLookup, Option.isSome_map', List.find?_isSome, List.mem_reverse,
    decide_eq_true_eq, Prod.ext_iff]

theorem spotLookup_of_mem {A : Adata} {s : ℕ}
    (hnd : ((sampleRows A s).map (fun r => (r.row, r.col))).Nodup)
    {r : SpotRow} (hr : r ∈ sampleRows A s) :
    spotLookup A s (r.row, r.col) = some r.label := by
  have hsome :
      ((sampleRows A s).reverse.find?
        (fun t => decide (t.row = r.row ∧ t.col = r.col))).isSome := by
    rw [List.find?_isSome]
    exact ⟨r, by simpa using hr, by simp⟩
  obtain ⟨x, hx⟩ := Option.isSome_iff_exists.mp hsome
  have hxmem : x ∈ sampleRows A s := by
    simpa using List.mem_of_find?_eq_some hx
  have hxpred := List.find?_some hx
  simp only [decide_eq_true_eq] at hxpred
  have hxr : x = r :=
    List.inj_on_of_nodup_map hnd hxmem hr (by simp [hxpred.1, hxpred.2])
  have hunf : spotLookup A s (r.row, r.col) =
      ((sampleRows A s).reverse.find?
        (fun t => decide (t.row = r.row ∧ t.col = r.col))).map (·.label) := rfl
  rw [hunf, hx]
  simp [hxr]

theorem mem_rowLabels_iff {A : Adata} {s : ℕ}
    (hnd : ((sampleRows A s).map (fun r => (r.row, r.col))).Nodup) {l1 : ℕ} :
    l1 ∈ rowLabels A s ↔ 0 < spotCount A s l1 := by
  constructor
  · intro h
    rw [rowLabels, mem_dedupFirst, List.mem_filterMap] at h
    obtain ⟨p, _, hlk⟩ := h
    rw [spotLookup] at hlk
    obtain ⟨x, hfind, hlab⟩ := Option.map_eq_some'.mp hlk
    have hxmem : x ∈ sampleRows A s := by
      simpa using List.mem_of_find?_eq_some hfind
    rw [spotCount]
    rw [List.length_pos_iff_exists_mem]
    exact ⟨x, List.mem_filter.mpr ⟨hxmem, by simp [hlab]⟩⟩
  · intro h
    rw [spotCount, List.length_pos_iff_exists_mem] at h
    obtain ⟨x, hx⟩ := h
    obtain ⟨hxmem, hxlab⟩ := List.mem_filter.mp hx
    simp only [decide_eq_true_eq] at hxlab
    rw [rowLabels, mem_dedupFirst, List.mem_filterMap]
    refine ⟨(x.row, x.col), mem_sampleCoords.mpr ⟨x, hxmem, rfl⟩, ?_⟩
    rw [spotLookup_of_mem hnd hxmem, hxlab]

theorem sum_map_add {α : Type} (l : List α) (f g : α → ℕ) :
    (l.map (fun x => f x + g x)).sum = (l.map f).sum + (l.map g).sum := by
  induction l with
  | nil => simp
  | cons a t ih => simp only [List.map_cons, List.sum_cons, ih]; ring

theorem sum_map_swap {α β : Type} (X : List α) (Y : List β) (f : α → β → ℕ) :
    (Y.map (fun y => (X.map (fun x => f x y)).sum)).sum
      = (X.map (fun x => (Y.map (fun y => f x y)).sum)).sum := by
  induction X with
  | nil => simp
  | cons a t ih =>
    simp only [List.map_cons, List.sum_cons, ← ih, sum_map_add]

theorem sum_indicator_eq_count {β : Type} [DecidableEq β] (L : List β) (l : β) :
    (L.map (fun l2 => if l = l2 then (1 : ℕ) else 0)).sum = L.count l := by
  induction L with
  | nil => simp
  | cons a t ih =>
    simp only [List.map_cons, List.sum_cons, ih, List.count_cons, beq_iff_eq]
    by_cases h : l = a
    · simp [h]; omega
    · simp [h]; exact fun hh => h hh.symm

theorem sum_if_label (L : List ℕ) (hL : L.Nodup) (o : Option ℕ)
    (hmem : ∀ l, o = some l → l ∈ L) :
    (L.map (fun l2 => if o = some l2 then (1 : ℕ) else 0)).sum
      = if o.isSome then 1 else 0 := by
  cases o with
  | none => simp
  | some l =>
    simp only [Option.some.injEq, Option.isSome_some, if_true]
    rw [sum_indicator_eq_count]
    exact List.count_eq_one_of_mem hL (hmem l rfl)

theorem filter_label_partition {α : Type} (os : List α) (f : α → Option ℕ)
    (L : List ℕ) (hL : L.Nodup) (hmem : ∀ d ∈ os, ∀ l, f d = some l → l ∈ L) :
    (L.map (fun l2 => (os.filter (fun d => decide (f d = some l2))).length)).sum
      = (os.filter (fun d => (f d).isSome)).length := by
  induction os with
  | nil => simp
  | cons d t ih =>
    have hstep : ∀ l2 : ℕ,
        ((d :: t).filter (fun d => decide (f d = some l2))).length
          = (if f d = some l2 then 1 else 0)
            + (t.filter (fun d => decide (f d = some l2))).length := by
      intro l2
      by_cases h : f d = some l2
      · simp [List.filter_cons, h]; omega
      · simp [List.filter_cons, h]
    simp only [hstep, sum_map_add]
    rw [ih (fun e he l hl => hmem e (List.mem_cons_of_mem d he) l hl)]
    rw [sum_if_label L hL (f d) (fun l hl => hmem d (List.mem_cons_self d t) l hl)]
    by_cases h : (f d).isSome
    · simp [List.filter_cons, h]; omega
    · simp [List.filter_cons, h]

theorem sum_map_div {α : Type} (l : List α) (f : α → ℚ) (c : ℚ) :
    (l.map (fun x => f x / c)).sum = (l.map f).sum / c := by
  induction l with
  | nil => simp
  | cons a t ih => simp [ih, add_div]

/-- Total neighbour interactions of the spots labelled `l1`. -/
def interactionTotal (A : Adata) (s : ℕ) (l1 : ℕ) : ℕ :=
  ((labelCoords A s l1).map (fun p => neighborTotal A s p)).sum

theorem mem_sampleIds_of_spotCount {A : Adata} {s : ℕ} {l1 : ℕ}
    (h : 0 < spotCount A s l1) : s ∈ sampleIds A := by
  rw [spotCount, List.length_pos_iff_exists_mem] at h
  obtain ⟨x, hx⟩ := h
  obtain ⟨hxmem, _⟩ := List.mem_filter.mp hx
  obtain ⟨hxA, hxs⟩ := mem_sampleRows.mp hxmem
  rw [sampleIds, mem_dedupFirst]
  exact List.mem_map.mpr ⟨x, hxA, hxs⟩

theorem nodup_allLabels (A : Adata) : (allLabels A).Nodup :=
  (List.perm_insertionSort _ _).nodup_iff.mpr (List.nodup_dedup _)

theorem neighbor_label_mem_allLabels {A : Adata} {s : ℕ} (hs : s ∈ sampleIds A)
    {q : ℤ × ℤ} {l : ℕ} (h : spotLookup A s q = some l) : l ∈ allLabels A := by
  have hq : q ∈ sampleCoords A s := spotLookup_isSome.mp (by simp [h])
  have hl : l ∈ rowLabels A s := by
    rw [rowLabels, mem_dedupFirst, List.mem_filterMap]; exact ⟨q, hq, h⟩
  have hl2 : l ∈ ((sampleIds A).flatMap (fun s => rowLabels A s)).dedup := by
    rw [List.mem_dedup, List.mem_flatMap]; exact ⟨s, hs, hl⟩
  exact (List.perm_insertionSort _ _).mem_iff.mpr hl2

/-- C10: for every sample and every cluster label with at least one spot
in that sample, each entry of the normalized adjacency matrix is the
ordered adjacency count under the 8 hexagonal offsets divided by the
label's spot count, the row sum is the label's total neighbour
interactions divided by its spot count, and a label with zero spots has
no matrix row at all — it is excluded rather than dividing by zero. -/
theorem adjacency_normalization (A : Adata) (s : ℕ)
    (hnd : ((sampleRows A s).map (fun r => (r.row, r.col))).Nodup) :
    (∀ l1, l1 ∈ rowLabels A s ↔ 0 < spotCount A s l1) ∧
    (∀ l1 l2, 0 < spotCount A s l1 →
      adjEntry A s l1 l2 = (adjCount A s l1 l2 : ℚ) / (spotCount A s l1 : ℚ)) ∧
    (∀ l1, 0 < spotCount A s l1 →
      ((allLabels A).map (fun l2 => adjEntry A s l1 l2)).sum
        = (interactionTotal A s l1 : ℚ) / (spotCount A s l1 : ℚ)) ∧
    (∀ l1, spotCount A s l1 = 0 →
      l1 ∉ rowLabels A s ∧ ∀ l2, adjEntry A s l1 l2 = 0) := by
  have hiff : ∀ l1, l1 ∈ rowLabels A s ↔ 0 < spotCount A s l1 :=
    fun l1 => mem_rowLabels_iff hnd
  have hentry : ∀ l1 l2, 0 < spotCount A s l1 →
      adjEntry A s l1 l2 = (adjCount A s l1 l2 : ℚ) / (spotCount A s l1 : ℚ) := by
    intro l1 l2 h
    rw [adjEntry, if_pos ((hiff l1).mpr h)]
  refine ⟨hiff, hentry, ?_, ?_⟩
  · intro l1 hpos
    have hs : s ∈ sampleIds A := mem_sampleIds_of_spotCount hpos
    have hrw : ((allLabels A).map (fun l2 => adjEntry A s l1 l2))
        = (allLabels A).map
            (fun l2 => (adjCount A s l1 l2 : ℚ) / (spotCount A s l1 : ℚ)) :=
      List.map_congr_left (fun l2 _ => hentry l1 l2 hpos)
    rw [hrw, sum_map_div]
    congr 1
    have hcast :
        (List.map (fun l2 => ((adjCount A s l1 l2 : ℕ) : ℚ)) (allLabels A)).sum
          = ((((allLabels A).map (fun l2 => adjCount A s l1 l2)).sum : ℕ) : ℚ) := by
      rw [Nat.cast_list_sum, List.map_map]; rfl
    rw [hcast, Nat.cast_inj]
    rw [show ((fun l2 => adjCount A s l1 l2) : ℕ → ℕ)
        = fun l2 => ((labelCoords A s l1).map
            (fun p => neighborLabelCount A s p l2)).sum from rfl]
    rw [sum_map_swap, interactionTotal]
    refine congrArg List.sum (List.map_congr_left ?_)
    intro p _
    rw [show (fun l2 => neighborLabelCount A s p l2)
        = fun l2 => (neighborsOffset.filter
            (fun d => decide (spotLookup A s (p.1 + d.1, p.2 + d.2) = some l2))).length
      from rfl]
    rw [filter_label_partition neighborsOffset
        (fun d => spotLookup A s (p.1 + d.1, p.2 + d.2)) (allLabels A)
        (nodup_allLabels A)
        (fun d _ l hl => neighbor_label_mem_allLabels hs hl)]
    rfl
  · intro l1 h0
    have hnr : l1 ∉ rowLabels A s := fun hmem => by
      have := (hiff l1).mp hmem; omega
    exact ⟨hnr, fun l2 => by rw [adjEntry, if_neg hnr]⟩

/-- A small concrete dataset for instantiating the theorems: two
samples in two condition groups on a hexagonal patch.  In sample 0
(group 0) the label-0 spot touches both label-1 spots; in sample 1
(group 1) the two spots are far apart. -/
def exData : Adata :=
  [⟨0, 0, 0, 0, 0⟩, ⟨0, 0, 2, 1, 0⟩, ⟨0, 1, 1, 1, 0⟩,
   ⟨1, 0, 0, 0, 1⟩, ⟨1, 0, 4, 1, 1⟩]

theorem adjacency_normalization_witness :
    ((sampleRows exData 0).map (fun r => (r.row, r.col))).Nodup ∧
    0 < spotCount exData 0 0 ∧
    adjEntry exData 0 0 1 = (adjCount exData 0 0 1 : ℚ) / (spotCount exData 0 0 : ℚ) ∧
    ((allLabels exData).map (fun l2 => adjEntry exData 0 0 l2)).sum
      = (interactionTotal exData 0 0 : ℚ) / (spotCount exData 0 0 : ℚ) :=
  ⟨by decide, by decide,
   (adjacency_normalization exData 0 (by decide)).2.1 0 1 (by decide),
   (adjacency_normalization exData 0 (by decide)).2.2.1 0 (by decide)⟩

theorem bhAdjust_length (ps : List ℚ) : (bhAdjust ps).length = ps.length := by
  simp [bhAdjust]

/-- C8: for a two-group run (both groups carrying at least one sample,
without which the source indexes a missing dictionary key), the
statistics table has exactly one row for every ordered pair in the full
cross-product of the unified label set — the row-pair sequence is
exactly the cross-product list, which has no duplicates — and a row's
raw p-value is the two-sided test oracle's value on the two per-sample
value vectors when both contain a nonzero, and exactly 1 otherwise. -/
theorem pairwise_table_shape (mw2 : List ℚ → List ℚ → ℚ) (A : Adata) (g1 g2 : ℕ)
    (_hg1 : groupSamples A g1 ≠ []) (_hg2 : groupSamples A g2 ≠ []) :
    ((fdrResults mw2 A g1 g2).map (fun r => (r.l1, r.l2))
      = allLabels A ×ˢ allLabels A) ∧
    (allLabels A ×ˢ allLabels A).Nodup ∧
    (∀ l1 l2, (l1, l2) ∈ allLabels A ×ˢ allLabels A ↔
        l1 ∈ allLabels A ∧ l2 ∈ allLabels A) ∧
    (∀ r ∈ fdrResults mw2 A g1 g2,
      r.p = if (pairValues A g1 r.l1 r.l2).any (fun v => decide (v ≠ 0)) ∧
               (pairValues A g2 r.l1 r.l2).any (fun v => decide (v ≠ 0)) then
          mw2 (pairValues A g1 r.l1 r.l2) (pairValues A g2 r.l1 r.l2)
        else 1) := by
  refine ⟨?_, ?_, ?_, ?_⟩
  · rw [fdrResults]
    rw [List.map_map]
    have hlen : (allLabels A ×ˢ allLabels A).length ≤
        (bhAdjust ((allLabels A ×ˢ allLabels A).map
          (fun q => pairP mw2 A g1 g2 q.1 q.2))).length := by
      rw [bhAdjust_length, List.length_map]
    calc ((allLabels A ×ˢ allLabels A).zip
            (bhAdjust ((allLabels A ×ˢ allLabels A).map
              (fun q => pairP mw2 A g1 g2 q.1 q.2)))).map
            (fun qf => (qf.1.1, qf.1.2))
        = ((allLabels A ×ˢ allLabels A).zip
            (bhAdjust ((allLabels A ×ˢ allLabels A).map
              (fun q => pairP mw2 A g1 g2 q.1 q.2)))).map Prod.fst := by
          exact List.map_congr_left (fun qf _ => rfl)
      _ = allLabels A ×ˢ allLabels A := List.map_fst_zip _ _ hlen
  · exact (nodup_allLabels A).product (nodup_allLabels A)
  · intro l1 l2; exact List.pair_mem_product
  · intro r hr
    rw [fdrResults] at hr
    obtain ⟨qf, _, hbuild⟩ := List.mem_map.mp hr
    rw [← hbuild]
    simp [pairP]

/-- C9: the focus-filtered table consists of exactly the rows that are
FDR-retained (corrected p below the cutoff), non-self, whose
focus-group mean exceeds `enrichment_fold` times the other group's
mean, and whose focus-group mean exceeds the mean of the focus-group
means taken over the FDR-retained non-self rows — not over all rows and
not over the focus-filtered rows themselves. -/
theorem focus_filter_characterization (mw2 : List ℚ → List ℚ → ℚ) (A : Adata)
    (g1 g2 f : ℕ) (ef Pv : ℚ) (hf : f = g1 ∨ f = g2) :
    ∀ r, r ∈ focusFiltered mw2 A g1 g2 f ef Pv ↔
      r ∈ fdrResults mw2 A g1 g2 ∧ r.fdr < Pv ∧ r.l1 ≠ r.l2 ∧
      meanFor f g1 r > ef * meanFor (otherOf f g1 g2) g1 r ∧
      meanFor f g1 r >
        listMean (((fdrResults mw2 A g1 g2).filter
          (fun t => decide (t.fdr < Pv ∧ t.l1 ≠ t.l2))).map (meanFor f g1)) := by
  intro r
  rw [focusFiltered, fdrFiltered, List.mem_filter, List.mem_filter]
  simp only [decide_eq_true_eq]
  tauto

/-- C2: the source raises its focus-group `ValueError` on the default
call (`focus_group=None`), where its own docstring (focus group
"optional", returns the FDR-filtered table "optionally" focus-refined)
and the spec promise a successful run; a designated focus group among
the compared groups succeeds. -/
theorem pairwise_table_shape_witness :
    (groupSamples exData 0 ≠ [] ∧ groupSamples exData 1 ≠ []) ∧
    ((fdrResults (fun _ _ => 1) exData 0 1).map (fun r => (r.l1, r.l2))
      = allLabels exData ×ˢ allLabels exData) :=
  ⟨⟨by decide, by decide⟩,
   (pairwise_table_shape (fun _ _ => 1) exData 0 1 (by decide) (by decide)).1⟩

/-- A concrete row used to instantiate the focus-filter theorem. -/
def exRow : PairRow := ⟨0, 1, 1, 0, 1, 1⟩

theorem focus_filter_characterization_witness :
    ((0 : ℕ) = 0 ∨ (0 : ℕ) = 1) ∧
    (exRow ∈ focusFiltered (fun _ _ => 1) exData 0 1 0 4 (1/20) ↔
      exRow ∈ fdrResults (fun _ _ => 1) exData 0 1 ∧ exRow.fdr < 1/20 ∧
      exRow.l1 ≠ exRow.l2 ∧
      meanFor 0 0 exRow > 4 * meanFor (otherOf 0 0 1) 0 exRow ∧
      meanFor 0 0 exRow >
        listMean (((fdrResults (fun _ _ => 1) exData 0 1).filter
          (fun t => decide (t.fdr < 1/20 ∧ t.l1 ≠ t.l2))).map (meanFor 0 0))) :=
  ⟨Or.inl rfl,
   focus_filter_characterization (fun _ _ => 1) exData 0 1 0 4 (1/20) (Or.inl rfl) exRow⟩

theorem compute_default_focus_raises :
    computeGroupwiseAdjacencyMatrix (fun _ _ => 1) exData 0 1 none 4 (1/20)
      = .error "focus group is not in the provided groups" ∧
    (computeGroupwiseAdjacencyMatrix (fun _ _ => 1) exData 0 1 (some 0) 4 (1/20)).isOk
      = true := by
  exact ⟨rfl, rfl⟩

/-! ### Geometric signatures (`geometric_signature`, `compare_structures`)

The source computes the signature with floating-point arithmetic
(`np.linalg.norm` on float coordinates).  It is modelled here over the
reals: coordinates are real points, a motif is a list of labelled
points, and `np.round(..., 6)` is modelled by integer rounding of the
scaled value. -/

/-- A labelled node of a motif. -/
abbrev RNode := (ℝ × ℝ) × ℕ

/-- A signature entry list: each pairwise distance with its label pair. -/
abbrev SigT := List (ℝ × (ℕ × ℕ))

/-- Euclidean distance of two points of the plane. -/
noncomputable def ptDist (p q : ℝ × ℝ) : ℝ :=
  Real.sqrt ((p.1 - q.1) ^ 2 + (p.2 - q.2) ^ 2)

/-- Python tuple comparison of coordinates: the `From < To` filter on
the stacked distance matrix, whose `name`s are the coordinate tuples. -/
def ptLt (p q : ℝ × ℝ) : Prop := p.1 < q.1 ∨ (p.1 = q.1 ∧ p.2 < q.2)

/-- `np.round(x, decimals=6)`. -/
noncomputable def round6 (x : ℝ) : ℝ := ((round (x * 1000000) : ℤ) : ℝ) / 1000000

/-- The centroid `np.mean(coordinates, axis=0)`. -/
noncomputable def centroid (s : List RNode) : ℝ × ℝ :=
  ((s.map (fun v => v.1.1)).sum / s.length, (s.map (fun v => v.1.2)).sum / s.length)

open Classical in
/-- The unsorted entries of `geometric_signature`: centre the
coordinates, compute all pairwise Euclidean distances of the centred
vectors, and keep the strict upper triangle of the stacked matrix
(`From < To` on the coordinate names), each entry carrying its label
pair. -/
noncomputable def sigEntries (s : List RNode) : SigT :=
  ((s ×ˢ s).filter (fun ab => decide (ptLt ab.1.1 ab.2.1))).map
    (fun ab =>
      (ptDist (ab.1.1.1 - (centroid s).1, ab.1.1.2 - (centroid s).2)
              (ab.2.1.1 - (centroid s).1, ab.2.1.2 - (centroid s).2),
       (ab.1.2, ab.2.2)))

open Classical in
/-- `geometric_signature`: the entries sorted by distance
(`sort_values(by='Distance')`). -/
noncomputable def geometricSignature (s : List RNode) : SigT :=
  (sigEntries s).insertionSort (fun a b => a.1 ≤ b.1)

/-- `tuple(sorted(label))`: order-normalize a label pair. -/
def normalizePair (p : ℕ × ℕ) : ℕ × ℕ := if p.1 ≤ p.2 then p else (p.2, p.1)

open Classical in
/-- `compare_structures`: round the distances to 6 decimals; the
signatures match when they have equal length and, for every rounded
distance of the first, the (order-normalized) label pairs at that
distance agree as multisets — `sorted(group1[d]) == sorted(group2[d])`,
with a missing key in `group2` failing the comparison. -/
def compareStructures (s1 s2 : SigT) : Prop :=
  s1.length = s2.length ∧
  ∀ d ∈ s1.map (fun e => round6 e.1),
    List.Perm
      ((s1.filter (fun e => decide (round6 e.1 = d))).map (fun e => normalizePair e.2))
      ((s2.filter (fun e => decide (round6 e.1 = d))).map (fun e => normalizePair e.2))

open Classical in
/-- The comparison key of one signature entry: rounded distance and
normalized label pair. -/
noncomputable def entryKey (e : ℝ × (ℕ × ℕ)) : ℝ × (ℕ × ℕ) :=
  (round6 e.1, normalizePair e.2)

theorem sum_filter_length {α β : Type} [DecidableEq β] (l : List α) (k : α → β)
    (L : List β) (hL : L.Nodup) :
    (L.map (fun d => (l.filter (fun x => decide (k x = d))).length)).sum
      = (l.filter (fun x => decide (k x ∈ L))).length := by
  induction l with
  | nil => simp
  | cons x t ih =>
    have hstep : ∀ d : β, ((x :: t).filter (fun y => decide (k y = d))).length
        = (if k x = d then 1 else 0)
          + (t.filter (fun y => decide (k y = d))).length := by
      intro d
      by_cases h : k x = d
      · simp [List.filter_cons, h]; omega
      · simp [List.filter_cons, h]
    simp only [hstep, sum_map_add, ih]
    have hind : (L.map (fun d => if k x = d then (1 : ℕ) else 0)).sum
        = if k x ∈ L then 1 else 0 := by
      rw [sum_indicator_eq_count]
      by_cases hm : k x ∈ L
      · rw [if_pos hm]; exact List.count_eq_one_of_mem hL hm
      · rw [if_neg hm]; exact List.count_eq_zero.mpr hm
    rw [hind]
    by_cases hm : k x ∈ L
    · simp [List.filter_cons, hm]; omega
    · simp [List.filter_cons, hm]

open Classical in
theorem perm_of_countP_eq {α : Type} (l1 l2 : List α)
    (h : ∀ x : α, l1.countP (fun y => decide (y = x))
        = l2.countP (fun y => decide (y = x))) :
    List.Perm l1 l2 := by
  rw [List.perm_iff_count]
  intro a
  rw [List.count_eq_countP, List.count_eq_countP]
  refine Eq.trans (List.countP_congr ?_) (Eq.trans (h a) (List.countP_congr ?_).symm)
  · intro e _; simp only [beq_iff_eq, decide_eq_true_eq]
  · intro e _; simp only [beq_iff_eq, decide_eq_true_eq]

open Classical in
/-- `compare_structures` succeeds exactly when the two signatures carry
the same multiset of (rounded distance, normalized label pair) keys: in
particular the relation it computes is an equivalence. -/
theorem compareStructures_iff (s1 s2 : SigT) :
    compareStructures s1 s2 ↔ List.Perm (s1.map entryKey) (s2.map entryKey) := by
  constructor
  · rintro ⟨hlen, hbuck⟩
    have hall2 : ∀ e ∈ s2, round6 e.1 ∈ s1.map (fun e => round6 e.1) := by
      set K := s1.map (fun e => round6 e.1) with hK
      have hbl : ∀ d ∈ K.dedup,
          (s1.filter (fun e => decide (round6 e.1 = d))).length
            = (s2.filter (fun e => decide (round6 e.1 = d))).length := by
        intro d hd
        have h := (hbuck d (List.mem_dedup.mp hd)).length_eq
        simpa using h
      have h1 : ((K.dedup).map (fun d =>
          (s1.filter (fun e => decide (round6 e.1 = d))).length)).sum = s1.length := by
        rw [sum_filter_length s1 (fun e => round6 e.1) K.dedup (List.nodup_dedup K)]
        congr 1
        apply List.filter_eq_self.mpr
        intro e he
        simp only [decide_eq_true_eq, List.mem_dedup]
        exact List.mem_map.mpr ⟨e, he, rfl⟩
      have h2 : ((K.dedup).map (fun d =>
          (s2.filter (fun e => decide (round6 e.1 = d))).length)).sum
          = (s2.filter (fun e => decide (round6 e.1 ∈ K.dedup))).length :=
        sum_filter_length s2 (fun e => round6 e.1) K.dedup (List.nodup_dedup K)
      have hmapeq : ((K.dedup).map (fun d =>
          (s1.filter (fun e => decide (round6 e.1 = d))).length))
          = ((K.dedup).map (fun d =>
          (s2.filter (fun e => decide (round6 e.1 = d))).length)) :=
        List.map_congr_left hbl
      have hflen : (s2.filter (fun e => decide (round6 e.1 ∈ K.dedup))).length
          = s2.length := by
        rw [← h2, ← hmapeq, h1, hlen]
      intro e he
      have hh := List.filter_length_eq_length.mp hflen e he
      simp only [decide_eq_true_eq, List.mem_dedup] at hh
      exact hh
    apply perm_of_countP_eq
    rintro ⟨d, p⟩
    rw [List.countP_map, List.countP_map]
    by_cases hd : d ∈ s1.map (fun e => round6 e.1)
    · have hb := (hbuck d hd).countP_eq (fun x => decide (x = p))
      rw [List.countP_map, List.countP_map, List.countP_filter, List.countP_filter] at hb
      refine Eq.trans (List.countP_congr ?_) (Eq.trans hb (List.countP_congr ?_).symm)
      · intro e _
        simp only [Function.comp_apply, Bool.and_eq_true, decide_eq_true_eq,
          entryKey, Prod.mk.injEq]
        tauto
      · intro e _
        simp only [Function.comp_apply, Bool.and_eq_true, decide_eq_true_eq,
          entryKey, Prod.mk.injEq]
        tauto
    · rw [List.countP_eq_zero.mpr, List.countP_eq_zero.mpr]
      · intro e he h
        simp only [Function.comp_apply, decide_eq_true_eq, entryKey, Prod.mk.injEq] at h
        exact hd (h.1 ▸ hall2 e he)
      · intro e he h
        simp only [Function.comp_apply, decide_eq_true_eq, entryKey, Prod.mk.injEq] at h
        exact hd (h.1 ▸ List.mem_map.mpr ⟨e, he, rfl⟩)
  · intro hperm
    refine ⟨by simpa using hperm.length_eq, ?_⟩
    intro d _
    have h := (hperm.filter (fun x => decide (x.1 = d))).map Prod.snd
    rw [List.filter_map, List.filter_map, List.map_map, List.map_map] at h
    exact h

/-! ### Invariance of the signature under isometries and reordering -/

theorem ptDist_comm (a b : ℝ × ℝ) : ptDist a b = ptDist b a := by
  unfold ptDist; congr 1; ring

theorem ptDist_sub_cancel (a b c : ℝ × ℝ) :
    ptDist (a.1 - c.1, a.2 - c.2) (b.1 - c.1, b.2 - c.2) = ptDist a b := by
  unfold ptDist; congr 1; ring

theorem ptDist_self (a : ℝ × ℝ) : ptDist a a = 0 := by
  unfold ptDist; simp

theorem ptDist_eq_zero {a b : ℝ × ℝ} (h : ptDist a b = 0) : a = b := by
  unfold ptDist at h
  have h2 := Real.sqrt_eq_zero'.mp h
  have e1 : (a.1 - b.1) ^ 2 = 0 := by nlinarith [sq_nonneg (a.1 - b.1), sq_nonneg (a.2 - b.2)]
  have e2 : (a.2 - b.2) ^ 2 = 0 := by nlinarith [sq_nonneg (a.1 - b.1), sq_nonneg (a.2 - b.2)]
  have p1 : a.1 = b.1 := by nlinarith [sq_nonneg (a.1 - b.1)]
  have p2 : a.2 = b.2 := by nlinarith [sq_nonneg (a.2 - b.2)]
  exact Prod.ext p1 p2

theorem normalizePair_comm (x y : ℕ) : normalizePair (x, y) = normalizePair (y, x) := by
  unfold normalizePair
  rcases Nat.lt_trichotomy x y with h | h | h
  · rw [if_pos (le_of_lt h), if_neg (by omega)]
  · subst h; simp
  · rw [if_neg (by omega), if_pos (le_of_lt h)]

theorem ptLt_total {a b : ℝ × ℝ} (h : a ≠ b) : ptLt a b ∨ ptLt b a := by
  rcases lt_trichotomy a.1 b.1 with h1 | h1 | h1
  · exact Or.inl (Or.inl h1)
  · rcases lt_trichotomy a.2 b.2 with h2 | h2 | h2
    · exact Or.inl (Or.inr ⟨h1, h2⟩)
    · exact absurd (Prod.ext h1 h2) h
    · exact Or.inr (Or.inr ⟨h1.symm, h2⟩)
  · exact Or.inr (Or.inl h1)

theorem ptLt_asymm {a b : ℝ × ℝ} : ¬(ptLt a b ∧ ptLt b a) := by
  rintro ⟨h1 | ⟨e1, h1⟩, h2 | ⟨e2, h2⟩⟩ <;> linarith

theorem ptLt_ne {a b : ℝ × ℝ} (h : ptLt a b) : a ≠ b := by
  rintro rfl
  rcases h with h | ⟨_, h⟩ <;> exact lt_irrefl _ h

theorem filter_or_perm {α : Type} (l : List α) (p q : α → Bool)
    (hdisj : ∀ x, ¬(p x = true ∧ q x = true)) :
    List.Perm (l.filter (fun x => p x || q x)) (l.filter p ++ l.filter q) := by
  induction l with
  | nil => simp
  | cons a t ih =>
    by_cases hp : p a = true
    · have hq : ¬q a = true := fun h => hdisj a ⟨hp, h⟩
      simp only [List.filter_cons, hp, hq, Bool.true_or, if_true, if_false,
        List.cons_append]
      exact ih.cons a
    · by_cases hq : q a = true
      · simp only [List.filter_cons, hp, hq, Bool.false_or, if_true, if_false]
        exact (ih.cons a).trans List.perm_middle.symm
      · simp only [List.filter_cons, hp, hq, Bool.false_or, if_false]
        exact ih

theorem product_cons_right_perm {α β : Type} (l1 : List α) (a : β) (t : List β) :
    List.Perm (l1 ×ˢ (a :: t)) (l1.map (fun x => (x, a)) ++ l1 ×ˢ t) := by
  induction l1 with
  | nil => simp
  | cons b m ih =>
    rw [List.product_cons, List.product_cons]
    simp only [List.map_cons, List.cons_append]
    refine List.Perm.cons _ ?_
    refine (List.Perm.append_left _ ih).trans ?_
    rw [← List.append_assoc, ← List.append_assoc]
    exact List.Perm.append List.perm_append_comm (List.Perm.refl _)

theorem product_swap_perm {α β : Type} (l1 : List α) (l2 : List β) :
    List.Perm ((l1 ×ˢ l2).map Prod.swap) (l2 ×ˢ l1) := by
  induction l1 with
  | nil => simp
  | cons a t ih =>
    rw [List.product_cons, List.map_append, List.map_map]
    have hmap : l2.map (Prod.swap ∘ fun b => (a, b)) = l2.map (fun b => (b, a)) :=
      List.map_congr_left (fun b _ => rfl)
    rw [hmap]
    exact (List.Perm.append_left _ ih).trans (product_cons_right_perm l2 a t).symm

theorem product_map_eq {α β : Type} (F : α → β) (l1 l2 : List α) :
    (l1.map F) ×ˢ (l2.map F) = (l1 ×ˢ l2).map (Prod.map F F) := by
  induction l1 with
  | nil => simp
  | cons a t ih =>
    rw [List.map_cons, List.product_cons, List.product_cons, ih, List.map_append,
      List.map_map, List.map_map]
    congr 1

open Classical in
theorem perm_of_append_self_perm {α : Type} (X Y : List α)
    (h : List.Perm (X ++ X) (Y ++ Y)) : List.Perm X Y := by
  apply perm_of_countP_eq
  intro x
  have hc := h.countP_eq (fun y => decide (y = x))
  rw [List.countP_append, List.countP_append] at hc
  omega

open Classical in
/-- The comparison key of an (ordered) node pair of a motif. -/
noncomputable def entryOf (ab : RNode × RNode) : ℝ × (ℕ × ℕ) :=
  (round6 (ptDist ab.1.1 ab.2.1), normalizePair (ab.1.2, ab.2.2))

open Classical in
theorem sigEntries_key (s : List RNode) :
    (sigEntries s).map entryKey
      = ((s ×ˢ s).filter (fun ab => decide (ptLt ab.1.1 ab.2.1))).map entryOf := by
  unfold sigEntries
  rw [List.map_map]
  apply List.map_congr_left
  intro ab _
  show entryKey _ = entryOf ab
  simp only [entryKey, entryOf]
  rw [ptDist_sub_cancel]

open Classical in
theorem gt_filter_key (s : List RNode) :
    List.Perm
      (((s ×ˢ s).filter (fun ab => decide (ptLt ab.2.1 ab.1.1))).map entryOf)
      (((s ×ˢ s).filter (fun ab => decide (ptLt ab.1.1 ab.2.1))).map entryOf) := by
  have hswap : List.Perm (s ×ˢ s) ((s ×ˢ s).map Prod.swap) := (product_swap_perm s s).symm
  refine ((hswap.filter _).map entryOf).trans ?_
  rw [List.filter_map, List.map_map]
  have hpred : ((fun ab : RNode × RNode => decide (ptLt ab.2.1 ab.1.1)) ∘ Prod.swap)
      = fun ab : RNode × RNode => decide (ptLt ab.1.1 ab.2.1) := rfl
  rw [hpred]
  have hmc : ∀ ab ∈ (s ×ˢ s).filter
      (fun ab : RNode × RNode => decide (ptLt ab.1.1 ab.2.1)),
      (entryOf ∘ Prod.swap) ab = entryOf ab := by
    intro ab _
    simp only [Function.comp_apply, entryOf, Prod.fst_swap, Prod.snd_swap]
    rw [ptDist_comm, normalizePair_comm]
  rw [List.map_congr_left hmc]

open Classical in
theorem sig_key_double (s : List RNode) :
    List.Perm
      ((geometricSignature s).map entryKey ++ (geometricSignature s).map entryKey)
      (((s ×ˢ s).filter (fun ab => decide (ab.1.1 ≠ ab.2.1))).map entryOf) := by
  have h1 : List.Perm ((geometricSignature s).map entryKey)
      (((s ×ˢ s).filter (fun ab => decide (ptLt ab.1.1 ab.2.1))).map entryOf) := by
    refine ((List.perm_insertionSort _ _).map entryKey).trans ?_
    rw [sigEntries_key]
  refine (List.Perm.append h1 h1).trans ?_
  refine (List.Perm.append (List.Perm.refl _) (gt_filter_key s).symm).trans ?_
  rw [← List.map_append]
  refine List.Perm.map entryOf ?_
  refine ((filter_or_perm (s ×ˢ s)
      (fun ab : RNode × RNode => decide (ptLt ab.1.1 ab.2.1))
      (fun ab : RNode × RNode => decide (ptLt ab.2.1 ab.1.1))
      (fun ab hab =>
        ptLt_asymm ⟨of_decide_eq_true hab.1, of_decide_eq_true hab.2⟩)).symm).trans ?_
  have heq : (s ×ˢ s).filter
      (fun ab : RNode × RNode =>
        decide (ptLt ab.1.1 ab.2.1) || decide (ptLt ab.2.1 ab.1.1))
      = (s ×ˢ s).filter (fun ab : RNode × RNode => decide (ab.1.1 ≠ ab.2.1)) := by
    apply List.filter_congr
    intro ab _
    rcases Classical.em (ab.1.1 = ab.2.1) with h | h
    · rw [decide_eq_false (fun hl => ptLt_ne hl h),
         decide_eq_false (fun hl => ptLt_ne hl h.symm),
         decide_eq_false (fun hne : ab.1.1 ≠ ab.2.1 => hne h)]
      rfl
    · rw [decide_eq_true (show ab.1.1 ≠ ab.2.1 from h)]
      rcases ptLt_total h with hl | hl
      · rw [decide_eq_true hl]; rfl
      · rw [decide_eq_true hl]
        simp
  rw [heq]

open Classical in
/-- C5: for every motif, every distance-preserving transformation of
the plane (any composition of translation, rotation and reflection is
one) applied to its node coordinates with labels carried along, and
every permutation of the node enumeration order, `compare_structures`
accepts the transformed motif's geometric signature against the
original's. -/
theorem signature_isometry_invariance (m m' : List RNode) (f : ℝ × ℝ → ℝ × ℝ)
    (hiso : ∀ p q, ptDist (f p) (f q) = ptDist p q)
    (hperm : List.Perm m' (m.map (fun v => (f v.1, v.2)))) :
    compareStructures (geometricSignature m) (geometricSignature m') := by
  rw [compareStructures_iff]
  apply perm_of_append_self_perm
  have finj : ∀ a b : ℝ × ℝ, f a = f b → a = b := by
    intro a b hfe
    apply ptDist_eq_zero
    rw [← hiso a b, hfe, ptDist_self]
  have hDmap :
      (((m.map (fun v : RNode => ((f v.1, v.2) : RNode))
          ×ˢ m.map (fun v : RNode => ((f v.1, v.2) : RNode))).filter
        (fun ab : RNode × RNode => decide (ab.1.1 ≠ ab.2.1))).map entryOf)
      = (((m ×ˢ m).filter
          (fun ab : RNode × RNode => decide (ab.1.1 ≠ ab.2.1))).map entryOf) := by
    rw [product_map_eq, List.filter_map, List.map_map]
    have hc1 : ∀ ab : RNode × RNode,
        ((fun ab : RNode × RNode => decide (ab.1.1 ≠ ab.2.1))
          ∘ Prod.map (fun v : RNode => ((f v.1, v.2) : RNode))
              (fun v : RNode => ((f v.1, v.2) : RNode))) ab
          = decide (ab.1.1 ≠ ab.2.1) := by
      intro ab
      show decide (f ab.1.1 ≠ f ab.2.1) = decide (ab.1.1 ≠ ab.2.1)
      rcases Classical.em (ab.1.1 = ab.2.1) with h | h
      · rw [decide_eq_false (fun hne => hne (congrArg f h)),
            decide_eq_false (fun hne => hne h)]
      · rw [decide_eq_true (show f ab.1.1 ≠ f ab.2.1 from fun hfe => h (finj _ _ hfe)),
            decide_eq_true (show ab.1.1 ≠ ab.2.1 from h)]
    rw [List.filter_congr (fun ab _ => hc1 ab)]
    apply List.map_congr_left
    intro ab _
    show entryOf (Prod.map _ _ ab) = entryOf ab
    simp only [entryOf, Prod.map_fst, Prod.map_snd]
    rw [hiso]
  refine (sig_key_double m).trans (List.Perm.trans ?_ (sig_key_double m').symm)
  rw [← hDmap]
  exact (((hperm.product hperm).filter _).map entryOf).symm

/-! ### Label-multiset discrimination of the signature -/

open Classical in
theorem countP_product {α β : Type} (l1 : List α) (l2 : List β) (P : α × β → Bool) :
    (l1 ×ˢ l2).countP P = (l1.map (fun a => l2.countP (fun b => P (a, b)))).sum := by
  induction l1 with
  | nil => simp
  | cons a t ih =>
    rw [List.product_cons, List.countP_append, List.countP_map, ih]
    rfl

theorem sum_if_mul {α : Type} (m : List α) (P : α → Prop) [DecidablePred P] (c : ℕ) :
    (m.map (fun a => if P a then c else 0)).sum
      = c * m.countP (fun a => decide (P a)) := by
  induction m with
  | nil => simp
  | cons a t ih =>
    rw [List.map_cons, List.sum_cons, ih, List.countP_cons]
    by_cases h : P a
    · rw [if_pos h, decide_eq_true h]
      simp only [if_true]
      ring
    · rw [if_neg h, decide_eq_false h]
      simp only [Bool.false_eq_true, if_false]
      ring

theorem countP_negation {α : Type} (l : List α) (P : α → Prop) [DecidablePred P] :
    l.countP (fun b => decide (¬P b)) = l.length - l.countP (fun b => decide (P b)) := by
  induction l with
  | nil => simp
  | cons a t ih =>
    have hle := List.countP_le_length (fun b => decide (P b)) (l := t)
    rw [List.countP_cons, List.countP_cons, ih, List.length_cons]
    by_cases h : P a
    · rw [decide_eq_false (not_not_intro h), decide_eq_true h]
      simp only [Bool.false_eq_true, if_false, if_true]
      omega
    · rw [decide_eq_true h, decide_eq_false h]
      simp only [Bool.false_eq_true, if_false, if_true]
      omega

open Classical in
theorem coordEq_countP {m : List RNode} (hnd : (m.map (fun v => v.1)).Nodup)
    {a : RNode} (ha : a ∈ m) :
    m.countP (fun b => decide (a.1 = b.1)) = 1 := by
  induction m with
  | nil => cases ha
  | cons x t ih =>
    rw [List.countP_cons]
    rw [List.map_cons, List.nodup_cons] at hnd
    rcases List.mem_cons.mp ha with rfl | hat
    · have ht : t.countP (fun b => decide (a.1 = b.1)) = 0 := by
        rw [List.countP_eq_zero]
        intro b hb hdec
        exact hnd.1 (List.mem_map.mpr ⟨b, hb, (of_decide_eq_true hdec).symm⟩)
      rw [ht, decide_eq_true (rfl : a.1 = a.1)]
      simp
    · have hx : ¬(a.1 = x.1) := fun he =>
        hnd.1 (List.mem_map.mpr ⟨a, hat, he⟩)
      rw [decide_eq_false hx, ih hnd.2 hat]
      simp

open Classical in
theorem ne_filter_length {m : List RNode} (hnd : (m.map (fun v => v.1)).Nodup) :
    ((m ×ˢ m).filter (fun ab : RNode × RNode => decide (ab.1.1 ≠ ab.2.1))).length
      = m.length * (m.length - 1) := by
  rw [← List.countP_eq_length_filter, countP_product]
  have hinner : ∀ a ∈ m,
      m.countP (fun b => decide (a.1 ≠ b.1)) = m.length - 1 := by
    intro a ha
    have := countP_negation m (fun b => a.1 = b.1)
    rw [coordEq_countP hnd ha] at this
    exact this
  rw [List.map_congr_left (fun a ha => by
    rw [show (fun b => decide ((a, b).1.1 ≠ (a, b).2.1)) = fun b : RNode => decide (a.1 ≠ b.1)
      from rfl, hinner a ha])]
  rw [show (fun _ : RNode => m.length - 1) = Function.const RNode (m.length - 1) from rfl,
    List.map_const, List.sum_replicate, smul_eq_mul]

open Classical in
theorem slot1_sum {m : List RNode} (hnd : (m.map (fun v => v.1)).Nodup) (x : ℕ) :
    (((m ×ˢ m).filter (fun ab : RNode × RNode => decide (ab.1.1 ≠ ab.2.1))).map
      (fun ab => if ab.1.2 = x then (1 : ℕ) else 0)).sum
      = (m.length - 1) * m.countP (fun v => decide (v.2 = x)) := by
  rw [sum_if_mul _ (fun ab : RNode × RNode => ab.1.2 = x) 1, one_mul,
    List.countP_filter, countP_product]
  have hper : ∀ a ∈ m,
      m.countP (fun b => decide (a.2 = x) && decide (a.1 ≠ b.1))
        = if a.2 = x then m.length - 1 else 0 := by
    intro a ha
    by_cases hax : a.2 = x
    · rw [if_pos hax]
      have hred : (fun b : RNode => decide (a.2 = x) && decide (a.1 ≠ b.1))
          = fun b : RNode => decide (a.1 ≠ b.1) := by
        funext b; rw [decide_eq_true hax, Bool.true_and]
      rw [hred]
      have h2 := countP_negation m (fun b : RNode => a.1 = b.1)
      rw [coordEq_countP hnd ha] at h2
      exact h2
    · rw [if_neg hax, List.countP_eq_zero]
      intro b _ hdec
      rw [decide_eq_false hax, Bool.false_and] at hdec
      cases hdec
  rw [List.map_congr_left (fun a ha => hper a ha), sum_if_mul]

open Classical in
theorem slot2_sum {m : List RNode} (hnd : (m.map (fun v => v.1)).Nodup) (x : ℕ) :
    (((m ×ˢ m).filter (fun ab : RNode × RNode => decide (ab.1.1 ≠ ab.2.1))).map
      (fun ab => if ab.2.2 = x then (1 : ℕ) else 0)).sum
      = (m.length - 1) * m.countP (fun v => decide (v.2 = x)) := by
  have hswap : List.Perm ((m ×ˢ m).map Prod.swap) (m ×ˢ m) := product_swap_perm m m
  have hs := ((hswap.filter
      (fun ab : RNode × RNode => decide (ab.1.1 ≠ ab.2.1))).map
      (fun ab : RNode × RNode => if ab.2.2 = x then (1 : ℕ) else 0)).sum_eq
  rw [← hs, List.filter_map, List.map_map]
  have hpc : ∀ ab ∈ (m ×ˢ m),
      ((fun ab : RNode × RNode => decide (ab.1.1 ≠ ab.2.1)) ∘ Prod.swap) ab
        = (fun ab : RNode × RNode => decide (ab.1.1 ≠ ab.2.1)) ab := by
    intro ab _
    show decide (ab.2.1 ≠ ab.1.1) = decide (ab.1.1 ≠ ab.2.1)
    rcases Classical.em (ab.1.1 = ab.2.1) with h | h
    · rw [decide_eq_false (fun hne : ab.2.1 ≠ ab.1.1 => hne h.symm),
        decide_eq_false (fun hne : ab.1.1 ≠ ab.2.1 => hne h)]
    · rw [decide_eq_true (show ab.2.1 ≠ ab.1.1 from fun he => h he.symm),
        decide_eq_true (show ab.1.1 ≠ ab.2.1 from h)]
  rw [List.filter_congr hpc]
  exact slot1_sum hnd x

open Classical in
theorem occ_entry_sum {m : List RNode} (hnd : (m.map (fun v => v.1)).Nodup) (x : ℕ) :
    ((((m ×ˢ m).filter
        (fun ab : RNode × RNode => decide (ab.1.1 ≠ ab.2.1))).map entryOf).map
      (fun e => (if e.2.1 = x then (1 : ℕ) else 0) + (if e.2.2 = x then 1 else 0))).sum
      = 2 * ((m.length - 1) * m.countP (fun v => decide (v.2 = x))) := by
  rw [List.map_map]
  have hpt : ∀ ab ∈ (m ×ˢ m).filter
      (fun ab : RNode × RNode => decide (ab.1.1 ≠ ab.2.1)),
      ((fun e : ℝ × (ℕ × ℕ) =>
          (if e.2.1 = x then (1 : ℕ) else 0) + (if e.2.2 = x then 1 else 0)) ∘ entryOf) ab
        = (if ab.1.2 = x then (1 : ℕ) else 0) + (if ab.2.2 = x then 1 else 0) := by
    intro ab _
    show (if (normalizePair (ab.1.2, ab.2.2)).1 = x then (1 : ℕ) else 0)
        + (if (normalizePair (ab.1.2, ab.2.2)).2 = x then 1 else 0) = _
    unfold normalizePair
    by_cases h : (ab.1.2, ab.2.2).1 ≤ (ab.1.2, ab.2.2).2
    · rw [if_pos h]
    · rw [if_neg h]
      exact Nat.add_comm _ _
  rw [List.map_congr_left hpt, sum_map_add, slot1_sum hnd x, slot2_sum hnd x]
  ring

open Classical in
/-- C7: two motifs (each with at least two nodes, nodes having distinct
coordinates) whose multisets of node labels differ are never matched by
`compare_structures` — the statement imposes no relation on the
distances, so it covers in particular motifs whose sorted distance
sequences coincide. -/
theorem signature_label_discrimination (m1 m2 : List RNode)
    (hl1 : 2 ≤ m1.length) (hl2 : 2 ≤ m2.length)
    (hnd1 : (m1.map (fun v => v.1)).Nodup) (hnd2 : (m2.map (fun v => v.1)).Nodup)
    (hlab : ¬ List.Perm (m1.map (fun v => v.2)) (m2.map (fun v => v.2))) :
    ¬ compareStructures (geometricSignature m1) (geometricSignature m2) := by
  intro hcmp
  rw [compareStructures_iff] at hcmp
  have hD : List.Perm
      (((m1 ×ˢ m1).filter
        (fun ab : RNode × RNode => decide (ab.1.1 ≠ ab.2.1))).map entryOf)
      (((m2 ×ˢ m2).filter
        (fun ab : RNode × RNode => decide (ab.1.1 ≠ ab.2.1))).map entryOf) :=
    (sig_key_double m1).symm.trans ((hcmp.append hcmp).trans (sig_key_double m2))
  have hlen := hD.length_eq
  rw [List.length_map, List.length_map, ne_filter_length hnd1, ne_filter_length hnd2]
    at hlen
  have hn : m1.length = m2.length := by
    rcases Nat.lt_trichotomy m1.length m2.length with h | h | h
    · exfalso
      have h1 : m1.length * (m1.length - 1) < m2.length * (m1.length - 1) :=
        Nat.mul_lt_mul_of_pos_right h (by omega)
      have h2 : m2.length * (m1.length - 1) ≤ m2.length * (m2.length - 1) :=
        Nat.mul_le_mul (le_refl _) (by omega)
      omega
    · exact h
    · exfalso
      have h1 : m2.length * (m2.length - 1) < m1.length * (m2.length - 1) :=
        Nat.mul_lt_mul_of_pos_right h (by omega)
      have h2 : m1.length * (m2.length - 1) ≤ m1.length * (m1.length - 1) :=
        Nat.mul_le_mul (le_refl _) (by omega)
      omega
  apply hlab
  apply perm_of_countP_eq
  intro x
  rw [List.countP_map, List.countP_map]
  have hocc := (hD.map (fun e : ℝ × (ℕ × ℕ) =>
      (if e.2.1 = x then (1 : ℕ) else 0) + (if e.2.2 = x then 1 else 0))).sum_eq
  rw [occ_entry_sum hnd1 x, occ_entry_sum hnd2 x, hn] at hocc
  have hc := Nat.eq_of_mul_eq_mul_left (show 0 < 2 by omega) hocc
  have hc2 := Nat.eq_of_mul_eq_mul_left (show 0 < m2.length - 1 by omega) hc
  refine Eq.trans (List.countP_congr ?_) (Eq.trans hc2 (List.countP_congr ?_).symm)
  · intro v _; simp only [Function.comp_apply, decide_eq_true_eq]
  · intro v _; simp only [Function.comp_apply, decide_eq_true_eq]

/-! ### Greedy representative-based grouping

The grouping loop keeps a list of groups in creation order; each group
records its first (representative) member and the members appended
after it.  A new item is compared against each representative in order
and joins the first match, else opens a new group. -/

section Grouping

variable {α : Type} (E : α → α → Prop)

open Classical in
noncomputable def insertItem (x : α) : List (α × List α) → List (α × List α)
  | [] => [(x, [])]
  | (r, ms) :: gs => if E x r then (r, ms ++ [x]) :: gs else (r, ms) :: insertItem x gs

open Classical in
noncomputable def groupFold (l : List α) : List (α × List α) :=
  l.foldl (fun gs x => insertItem E x gs) []

/-- The partition a group list denotes: the multiset of member
multisets, forgetting group ids and orders. -/
def partsOf (gs : List (α × List α)) : Multiset (Multiset α) :=
  ↑(gs.map (fun g => ((g.1 :: g.2 : List α) : Multiset α)))

open Classical in
/-- The state invariant of the grouping fold over the processed prefix
`done`: every group holds exactly the processed members of its
representative's class, representatives are pairwise unrelated, and
every processed item lies in some group's class. -/
def GroupInv (done : List α) (gs : List (α × List α)) : Prop :=
  (∀ g ∈ gs, ((g.1 :: g.2 : List α) : Multiset α)
      = ↑(done.filter (fun y => decide (E g.1 y))) ∧ g.1 ∈ done) ∧
  gs.Pairwise (fun g h => ¬E g.1 h.1) ∧
  (∀ x ∈ done, ∃ g ∈ gs, E g.1 x)

open Classical in
theorem insertItem_cases (x : α) (gs : List (α × List α)) :
    (∃ pre g post, gs = pre ++ g :: post ∧ (∀ h ∈ pre, ¬E x h.1) ∧ E x g.1 ∧
      insertItem E x gs = pre ++ (g.1, g.2 ++ [x]) :: post) ∨
    ((∀ g ∈ gs, ¬E x g.1) ∧ insertItem E x gs = gs ++ [(x, [])]) := by
  induction gs with
  | nil =>
    right
    exact ⟨by simp, rfl⟩
  | cons g t ih =>
    rcases g with ⟨r, ms⟩
    by_cases h : E x r
    · left
      exact ⟨[], (r, ms), t, rfl, by simp, h, by simp [insertItem, h]⟩
    · rcases ih with ⟨pre, g0, post, he, hpre, hg0, hres⟩ | ⟨hall, hres⟩
      · left
        refine ⟨(r, ms) :: pre, g0, post, by rw [he, List.cons_append], ?_, hg0, ?_⟩
        · intro h' hh
          rcases List.mem_cons.mp hh with rfl | hh'
          · exact h
          · exact hpre h' hh'
        · simp [insertItem, h, hres]
      · right
        refine ⟨?_, by simp [insertItem, h, hres]⟩
        intro g' hg'
        rcases List.mem_cons.mp hg' with rfl | hg''
        · exact h
        · exact hall g' hg''

open Classical in
theorem groupInv_step (hE : Equivalence E)
    (done : List α) (gs : List (α × List α)) (x : α)
    (h : GroupInv E done gs) : GroupInv E (done ++ [x]) (insertItem E x gs) := by
  obtain ⟨ha, hb, hc⟩ := h
  rcases insertItem_cases E x gs with
    ⟨pre, g, post, hgs, hpre, hgx, hres⟩ | ⟨hall, hres⟩
  · subst hgs
    rw [hres]
    have hrx : E g.1 x := hE.symm hgx
    have hother : ∀ h', h' ∈ pre ∨ h' ∈ post → ¬E h'.1 x := by
      intro h' hmem
      rcases hmem with hm | hm
      · exact fun hx => (hpre h' hm) (hE.symm hx)
      · have hng : ¬E g.1 h'.1 := by
          have hpw := hb
          rw [List.pairwise_append] at hpw
          have hgp := hpw.2.1
          rw [List.pairwise_cons] at hgp
          exact hgp.1 h' hm
        exact fun hx => hng (hE.trans hrx (hE.symm hx))
    have hfilter_keep : ∀ g' : α × List α, ¬E g'.1 x →
        (done ++ [x]).filter (fun y => decide (E g'.1 y))
          = done.filter (fun y => decide (E g'.1 y)) := by
      intro g' hne
      rw [List.filter_append]
      simp [decide_eq_false hne]
    refine ⟨?_, ?_, ?_⟩
    · intro g' hg'
      rw [List.mem_append, List.mem_cons] at hg'
      rcases hg' with hm | hm | hm
      · have hold := ha g' (by rw [List.mem_append]; exact Or.inl hm)
        refine ⟨?_, by rw [List.mem_append]; exact Or.inl hold.2⟩
        rw [hfilter_keep g' (hother g' (Or.inl hm))]
        exact hold.1
      · subst hm
        have hold := ha g (by
          rw [List.mem_append, List.mem_cons]; exact Or.inr (Or.inl rfl))
        refine ⟨?_, by rw [List.mem_append]; exact Or.inl hold.2⟩
        show ((g.1 :: (g.2 ++ [x]) : List α) : Multiset α) = _
        rw [List.filter_append]
        have hx1 : [x].filter (fun y => decide (E g.1 y)) = [x] := by
          simp [decide_eq_true hrx]
        rw [hx1]
        rw [show (g.1 :: (g.2 ++ [x]) : List α) = (g.1 :: g.2) ++ [x] from rfl]
        rw [← Multiset.coe_add, ← Multiset.coe_add, hold.1]
      · have hold := ha g' (by
          rw [List.mem_append, List.mem_cons]; exact Or.inr (Or.inr hm))
        refine ⟨?_, by rw [List.mem_append]; exact Or.inl hold.2⟩
        rw [hfilter_keep g' (hother g' (Or.inr hm))]
        exact hold.1
    · rw [List.pairwise_append] at hb ⊢
      obtain ⟨hb1, hb2, hb3⟩ := hb
      rw [List.pairwise_cons] at hb2 ⊢
      refine ⟨hb1, ⟨fun h' hm => hb2.1 h' hm, hb2.2⟩, ?_⟩
      intro a ha' b hb'
      rcases List.mem_cons.mp hb' with rfl | hm
      · exact hb3 a ha' g (List.mem_cons_self g post)
      · exact hb3 a ha' b (List.mem_cons_of_mem _ hm)
    · intro y hy
      rw [List.mem_append, List.mem_singleton] at hy
      rcases hy with hy | hyx
      · obtain ⟨gy, hgy, hEy⟩ := hc y hy
        rw [List.mem_append, List.mem_cons] at hgy
        rcases hgy with hm | hm | hm
        · exact ⟨gy, by rw [List.mem_append]; exact Or.inl hm, hEy⟩
        · exact ⟨(g.1, g.2 ++ [x]), by
            rw [List.mem_append, List.mem_cons]; exact Or.inr (Or.inl rfl),
            hm ▸ hEy⟩
        · exact ⟨gy, by
            rw [List.mem_append, List.mem_cons]; exact Or.inr (Or.inr hm), hEy⟩
      · exact ⟨(g.1, g.2 ++ [x]), by
          rw [List.mem_append, List.mem_cons]; exact Or.inr (Or.inl rfl),
          by rw [hyx]; exact hrx⟩
  · rw [hres]
    have hxnew : done.filter (fun y => decide (E x y)) = [] := by
      rw [List.filter_eq_nil_iff]
      intro y hy hdec
      obtain ⟨gy, hgy, hEy⟩ := hc y hy
      exact (hall gy hgy) (hE.symm (hE.trans hEy (hE.symm (of_decide_eq_true hdec))))
    refine ⟨?_, ?_, ?_⟩
    · intro g' hg'
      rw [List.mem_append, List.mem_singleton] at hg'
      rcases hg' with hm | rfl
      · have hold := ha g' hm
        have hne : ¬E g'.1 x := fun hx => (hall g' hm) (hE.symm hx)
        refine ⟨?_, by rw [List.mem_append]; exact Or.inl hold.2⟩
        rw [List.filter_append]
        have : [x].filter (fun y => decide (E g'.1 y)) = [] := by
          simp [decide_eq_false hne]
        rw [this, List.append_nil]
        exact hold.1
      · refine ⟨?_, by
          rw [List.mem_append, List.mem_singleton]; exact Or.inr rfl⟩
        show (([x] : List α) : Multiset α) = _
        rw [List.filter_append, hxnew]
        have : [x].filter (fun y => decide (E x y)) = [x] := by
          simp [decide_eq_true (hE.refl x)]
        rw [this]
        rfl
    · rw [List.pairwise_append]
      refine ⟨hb, List.pairwise_singleton _ _, ?_⟩
      intro g' hg' y hy
      rw [List.mem_singleton] at hy
      subst hy
      exact fun hEx => (hall g' hg') (hE.symm hEx)
    · intro y hy
      rw [List.mem_append, List.mem_singleton] at hy
      rcases hy with hy | rfl
      · obtain ⟨gy, hgy, hEy⟩ := hc y hy
        exact ⟨gy, by rw [List.mem_append]; exact Or.inl hgy, hEy⟩
      · exact ⟨(y, []), by
          rw [List.mem_append, List.mem_singleton]; exact Or.inr rfl, hE.refl y⟩

open Classical in
theorem groupInv_fold (hE : Equivalence E) (l : List α) :
    GroupInv E l (groupFold E l) := by
  have hgen : ∀ (t done : List α) (gs : List (α × List α)), GroupInv E done gs →
      GroupInv E (done ++ t) (t.foldl (fun gs x => insertItem E x gs) gs) := by
    intro t
    induction t with
    | nil => intro done gs h; simpa using h
    | cons x t ih =>
      intro done gs h
      have hstep := groupInv_step E hE done gs x h
      have := ih (done ++ [x]) _ hstep
      rw [List.append_assoc] at this
      simpa using this
  have hnil : GroupInv E [] ([] : List (α × List α)) := by
    refine ⟨?_, List.Pairwise.nil, ?_⟩
    · intro g hg; cases hg
    · intro y hy; cases hy
  have := hgen l [] [] hnil
  simpa [groupFold] using this

theorem countP_le_one_of_pairwise {β : Type} (gs : List β) (R : β → β → Prop)
    (p : β → Bool) (hpw : gs.Pairwise R)
    (hconfl : ∀ a ∈ gs, ∀ b ∈ gs, p a = true → p b = true → R a b → False) :
    gs.countP p ≤ 1 := by
  induction gs with
  | nil => simp
  | cons g t ih =>
    rw [List.countP_cons]
    rw [List.pairwise_cons] at hpw
    by_cases hp : p g = true
    · have hz : t.countP p = 0 := by
        rw [List.countP_eq_zero]
        intro b hb hpb
        exact hconfl g (List.mem_cons_self g t) b (List.mem_cons_of_mem g hb)
          hp hpb (hpw.1 b hb)
      rw [hz, hp]
      simp
    · rw [if_neg hp]
      have := ih hpw.2 (fun a haa b hbb hpa hpb hr =>
        hconfl a (List.mem_cons_of_mem g haa) b (List.mem_cons_of_mem g hbb) hpa hpb hr)
      omega

open Classical in
theorem groupFold_class_count (hE : Equivalence E) (l : List α) (P : Multiset α) :
    (groupFold E l).countP
        (fun g => decide (((g.1 :: g.2 : List α) : Multiset α) = P))
      = if ∃ x ∈ l, (↑(l.filter (fun y => decide (E x y))) : Multiset α) = P
        then 1 else 0 := by
  obtain ⟨ha, hb, hc⟩ := groupInv_fold E hE l
  by_cases hex : ∃ x ∈ l, (↑(l.filter (fun y => decide (E x y))) : Multiset α) = P
  · rw [if_pos hex]
    obtain ⟨x, hxl, hxP⟩ := hex
    obtain ⟨g, hg, hgx⟩ := hc x hxl
    have hgmem : ((g.1 :: g.2 : List α) : Multiset α) = P := by
      rw [(ha g hg).1, ← hxP]
      congr 1
      apply List.filter_congr
      intro y _
      rcases Classical.em (E x y) with h | h
      · rw [decide_eq_true h, decide_eq_true (hE.trans hgx h)]
      · rw [decide_eq_false h,
          decide_eq_false (fun hg' => h (hE.trans (hE.symm hgx) hg'))]
    have hle : (groupFold E l).countP
        (fun g => decide (((g.1 :: g.2 : List α) : Multiset α) = P)) ≤ 1 := by
      refine countP_le_one_of_pairwise _ _ _ hb ?_
      intro a haa b hbb hpa hpb hr
      have hpa' := of_decide_eq_true hpa
      have hpb' := of_decide_eq_true hpb
      have hbP : b.1 ∈ P := by
        rw [← hpb']
        exact List.mem_cons_self b.1 b.2
      have hbA : (b.1 : α) ∈ ((a.1 :: a.2 : List α) : Multiset α) := by
        rw [hpa']; exact hbP
      have hbA' : b.1 ∈ l.filter (fun y => decide (E a.1 y)) := by
        have := (ha a haa).1
        rw [this] at hbA
        exact hbA
      have := List.of_mem_filter hbA'
      exact hr (of_decide_eq_true this)
    have hge : 0 < (groupFold E l).countP
        (fun g => decide (((g.1 :: g.2 : List α) : Multiset α) = P)) := by
      rw [List.countP_pos_iff]
      exact ⟨g, hg, decide_eq_true hgmem⟩
    omega
  · rw [if_neg hex, List.countP_eq_zero]
    intro g hg hdec
    refine hex ⟨g.1, (ha g hg).2, ?_⟩
    rw [← (ha g hg).1]
    exact of_decide_eq_true hdec

end Grouping

theorem compareStructures_equivalence : Equivalence compareStructures := by
  constructor
  · intro s
    rw [compareStructures_iff]
  · intro s t h
    rw [compareStructures_iff] at h ⊢
    exact h.symm
  · intro a b c h1 h2
    rw [compareStructures_iff] at h1 h2 ⊢
    exact h1.trans h2

/-- An item of the grouping loop: a `(sample, structure)` key together
with its precomputed signature (`structure_signatures`). -/
abbrev SigItem := (ℕ × ℕ) × SigT

/-- The match relation of the grouping loop: the new item's signature
compared against a group representative's. -/
def sigMatch (a b : SigItem) : Prop := compareStructures a.2 b.2

theorem sigMatch_equivalence : Equivalence sigMatch :=
  ⟨fun a => compareStructures_equivalence.refl a.2,
   fun h => compareStructures_equivalence.symm h,
   fun h1 h2 => compareStructures_equivalence.trans h1 h2⟩

/-- The grouping loop of
`extract_and_group_3rd_structures_from_2nd_with_ratio` (and of
`group_structures_by_geometry`): fold the items in order, each joining
the first group whose representative's signature matches, else opening
a new group. -/
noncomputable def groupStructures (items : List SigItem) :
    List (SigItem × List SigItem) :=
  groupFold sigMatch items

open Classical in
/-- C6: shuffling the motif list before the greedy representative-based
grouping yields the same partition of the motifs into groups: the
multiset of group-membership multisets is identical, only group ids and
orders may differ.  This holds because `compare_structures` is an
equivalence relation (it tests equality of the multiset of
(rounded distance, normalized label pair) keys). -/
theorem grouping_order_invariance (items items' : List SigItem)
    (hperm : List.Perm items items') :
    partsOf (groupStructures items) = partsOf (groupStructures items') := by
  rw [partsOf, partsOf, Multiset.coe_eq_coe]
  apply perm_of_countP_eq
  intro P
  rw [List.countP_map, List.countP_map]
  have h1 := groupFold_class_count sigMatch sigMatch_equivalence items P
  have h2 := groupFold_class_count sigMatch sigMatch_equivalence items' P
  have hcond :
      (∃ x ∈ items, (↑(items.filter (fun y => decide (sigMatch x y))) : Multiset SigItem) = P)
        ↔ (∃ x ∈ items', (↑(items'.filter (fun y => decide (sigMatch x y))) : Multiset SigItem) = P) := by
    constructor
    · rintro ⟨x, hx, hxP⟩
      refine ⟨x, hperm.mem_iff.mp hx, ?_⟩
      rw [← hxP, Multiset.coe_eq_coe]
      exact (hperm.filter _).symm
    · rintro ⟨x, hx, hxP⟩
      refine ⟨x, hperm.mem_iff.mpr hx, ?_⟩
      rw [← hxP, Multiset.coe_eq_coe]
      exact hperm.filter _
  rw [groupStructures, groupStructures]
  refine Eq.trans (List.countP_congr ?_)
    (Eq.trans h1 (Eq.trans ?_ (Eq.trans h2.symm (List.countP_congr ?_).symm)))
  · intro g _
    simp only [Function.comp_apply, decide_eq_true_eq]
  · by_cases hc : ∃ x ∈ items,
        (↑(items.filter (fun y => decide (sigMatch x y))) : Multiset SigItem) = P
    · rw [if_pos hc, if_pos (hcond.mp hc)]
    · rw [if_neg hc, if_neg (fun hc' => hc (hcond.mpr hc'))]
  · intro g _
    simp only [Function.comp_apply, decide_eq_true_eq]

/-- A concrete one-item list for the grouping witness. -/
def sigItemsW : List SigItem := [((0, 0), [(1, (0, 1))])]

theorem grouping_order_invariance_witness :
    List.Perm sigItemsW sigItemsW ∧
    partsOf (groupStructures sigItemsW) = partsOf (groupStructures sigItemsW) :=
  ⟨List.Perm.refl _,
   grouping_order_invariance sigItemsW sigItemsW (List.Perm.refl _)⟩

/-- A concrete two-node motif for the invariance witness. -/
def mW : List RNode := [((0, 0), 0), ((1, 0), 1)]

/-- A second motif on the same coordinates as `mW` (hence the same
distances) with a different label multiset. -/
def mWb : List RNode := [((0, 0), 0), ((1, 0), 0)]

theorem signature_label_discrimination_witness :
    (2 ≤ mW.length ∧ 2 ≤ mWb.length ∧
     (mW.map (fun v => v.1)).Nodup ∧ (mWb.map (fun v => v.1)).Nodup ∧
     ¬List.Perm (mW.map (fun v => v.2)) (mWb.map (fun v => v.2))) ∧
    ¬compareStructures (geometricSignature mW) (geometricSignature mWb) :=
  ⟨⟨by decide, by decide, by simp [mW, Prod.ext_iff], by simp [mWb, Prod.ext_iff],
    by decide⟩,
   signature_label_discrimination mW mWb (by decide) (by decide)
     (by simp [mW, Prod.ext_iff]) (by simp [mWb, Prod.ext_iff]) (by decide)⟩

theorem signature_isometry_invariance_witness :
    (∀ p q : ℝ × ℝ, ptDist (id p) (id q) = ptDist p q) ∧
    List.Perm mW (mW.map (fun v => ((id : ℝ × ℝ → ℝ × ℝ) v.1, v.2))) ∧
    compareStructures (geometricSignature mW) (geometricSignature mW) :=
  ⟨fun _ _ => rfl, List.Perm.refl mW,
   signature_isometry_invariance mW mW id (fun _ _ => rfl) (List.Perm.refl mW)⟩

/-! ### The expansion loop: `expand_structure`, `group_structures_by_geometry`,
`analyze_structure_groups` and `iterative_structure_analysis` -/

/-- A structure key `(sample, structure_<id>)`. -/
abbrev SKey := ℕ × ℕ

/-- A motif: the list of `((row, col), label)` nodes. -/
abbrev Motif := List ((ℤ × ℤ) × ℕ)

/-- `structure_dict`: keys with their node lists, in insertion order. -/
abbrev StructMap := List (SKey × Motif)

/-- `potential_new_nodes`: over the motif's points, each of the 8
offset neighbours that lies in the sample's spot dict and is not
already a point of the motif, as a deduplicated set of
`(coordinate, label)` nodes. -/
def potentialNewNodes (A : Adata) (s : ℕ) (pts : Motif) : List ((ℤ × ℤ) × ℕ) :=
  dedupFirst ((pts.map (fun v => v.1)).flatMap (fun p =>
    neighborsOffset.filterMap (fun d =>
      if (p.1 + d.1, p.2 + d.2) ∈ pts.map (fun v => v.1) then none
      else (spotLookup A s (p.1 + d.1, p.2 + d.2)).map
        (fun lab => ((p.1 + d.1, p.2 + d.2), lab)))))

/-- One step of the `expand_structure` fold: the running global
`structure_id` counter together with the expanded structures built so
far; the current structure contributes one expanded structure per
potential new node (the node appended to its points), and contributes
nothing when it has no potential new node. -/
def expandStep (A : Adata) (acc : ℕ × StructMap) (kv : SKey × Motif) : ℕ × StructMap :=
  (acc.1 + (potentialNewNodes A kv.1.1 kv.2).length,
   acc.2 ++ (potentialNewNodes A kv.1.1 kv.2).enum.map
     (fun ni => ((kv.1.1, acc.1 + ni.1), kv.2 ++ [ni.2])))

/-- `expand_structure`: an empty structure dict yields the empty dict;
otherwise fold `expandStep` over the structures in order, starting the
global counter at 0. -/
def expandStructure (A : Adata) (sd : StructMap) : StructMap :=
  if sd = [] then [] else (sd.foldl (expandStep A) (0, [])).2

/-- Cast a motif's integer grid nodes to real-coordinate nodes (the
dataframe handed to `geometric_signature`). -/
noncomputable def castNodes (pts : Motif) : List RNode :=
  pts.map (fun v => (((v.1.1 : ℝ), (v.1.2 : ℝ)), v.2))

/-- `group_by_label_sets`: batch the structures by the frozenset of
their node labels; batches are in first-occurrence order and keep their
members in input order. -/
def batchByLabels (sd : StructMap) : List (Finset ℕ × StructMap) :=
  sd.foldl (fun acc kv =>
    if acc.any (fun b => decide (b.1 = (kv.2.map (fun v => v.2)).toFinset)) then
      acc.map (fun b => if b.1 = (kv.2.map (fun v => v.2)).toFinset
        then (b.1, b.2 ++ [kv]) else b)
    else acc ++ [((kv.2.map (fun v => v.2)).toFinset, [kv])]) []

/-- `group_structures_by_geometry`: compute every structure's geometric
signature, then feed the structures — batch by batch in label-set order
— into the greedy representative grouping; groups are global across
batches.  The result is the list of member keys of each group, groups
in creation order (= their integer group ids). -/
noncomputable def groupGeometry (sd : StructMap) : List (List SKey) :=
  (groupStructures ((((batchByLabels sd).map (fun b => b.2)).flatten).map
    (fun kv => ((kv.1 : ℕ × ℕ), geometricSignature (castNodes kv.2))))).map
    (fun g => (g.1 :: g.2).map (fun it => it.1))

/-- One row of the `analyze_structure_groups` dataframe. -/
structure GroupRow where
  gid : ℕ
  countSample : ℕ
  countMean : ℚ
  rmean : ℚ
  rvals : List ℚ
  cmo : ℚ
  foldChange : ℚ
  coverage : ℚ
  pval : ℚ
  adjP : ℚ
  significant : Bool
deriving DecidableEq

/-- `focus_sample_ids` / `all_samples`: the samples of the rows whose
group equals the focus group, in first-occurrence order. -/
def focusSamples (A : Adata) (fg : ℕ) : List ℕ :=
  dedupFirst ((A.filter (fun r => decide (r.grp = fg))).map (fun r => r.sample))

/-- `sample_total_spots[s]`: the number of observation rows of sample
`s` (over the whole table). -/
def sampleSpotsTotal (A : Adata) (s : ℕ) : ℕ :=
  (A.filter (fun r => decide (r.sample = s))).length

/-- The `1e-9` guard of `analyze_structure_groups`. -/
def tinyEps : ℚ := 1 / 1000000000

/-- `np.mean(vectors, axis=0)`: the elementwise mean of the ratio
vectors, each of length `n`. -/
def meanVec (vs : List (List ℚ)) (n : ℕ) : List ℚ :=
  (List.range n).map (fun j => (vs.map (fun v => v.getD j 0)).sum / (vs.length : ℚ))

/-- `group_counts[gid]`: per focus sample (in order), how many of the
group's member keys belong to that sample. -/
def groupCounts (A : Adata) (fg : ℕ) (members : List SKey) : List ℕ :=
  (focusSamples A fg).map (fun sid => (members.filter (fun m => decide (m.1 = sid))).length)

/-- The per-sample ratio vector of a group: count over the sample's
total spots when that total is positive, else 0. -/
def groupRatioVec (A : Adata) (fg : ℕ) (members : List SKey) : List ℚ :=
  ((groupCounts A fg members).zip ((focusSamples A fg).map (fun s => sampleSpotsTotal A s))).map
    (fun ct => if 0 < ct.2 then (ct.1 : ℚ) / (ct.2 : ℚ) else 0)

/-- `analyze_structure_groups`, parametric in the Mann–Whitney oracle
`mwG` (`none` models the `ValueError` branch, mapped to p = 1): one row
per group carrying the count/ratio summaries, `Count_Mean_Other`
(`1e-9` when there is a single group), `Fold_Change` (0 in the
denominator replaced by `1e-9`), `Coverage`, the p-values and their
Benjamini–Hochberg adjustment, and the `Significant` flag; the rows are
returned sorted by adjusted p-value. -/
def analyzeStructureGroups (mwG : List ℚ → List ℚ → Option ℚ) (A : Adata)
    (grouped : List (List SKey)) (fg : ℕ) (fcThr pThr covThr : ℚ) : List GroupRow :=
  let nS := (focusSamples A fg).length
  let cmeans := grouped.map (fun members =>
    ((groupCounts A fg members).map (fun c => (c : ℚ))).sum / (nS : ℚ))
  let allR := grouped.map (fun members => groupRatioVec A fg members)
  let cmoOf := fun (i : ℕ) =>
    if 1 < grouped.length then
      ((cmeans.enum.filter (fun jc => decide (jc.1 ≠ i))).map (fun jc => jc.2)).sum
        / ((grouped.length - 1 : ℕ) : ℚ)
    else tinyEps
  let pOf := fun (i : ℕ) =>
    match mwG (allR.getD i [])
        (meanVec ((allR.enum.filter (fun jr => decide (jr.1 ≠ i))).map (fun jr => jr.2)) nS) with
    | some p => p
    | none => 1
  let adj := bhAdjust ((List.range grouped.length).map pOf)
  (grouped.enum.map (fun gm =>
    { gid := gm.1,
      countSample := ((groupCounts A fg gm.2).filter (fun c => decide (0 < c))).length,
      countMean := ((groupCounts A fg gm.2).map (fun c => (c : ℚ))).sum / (nS : ℚ),
      rmean := (groupRatioVec A fg gm.2).sum / (nS : ℚ),
      rvals := groupRatioVec A fg gm.2,
      cmo := cmoOf gm.1,
      foldChange := (((groupCounts A fg gm.2).map (fun c => (c : ℚ))).sum / (nS : ℚ))
        / (if cmoOf gm.1 = 0 then tinyEps else cmoOf gm.1),
      coverage := (((groupCounts A fg gm.2).filter (fun c => decide (0 < c))).length : ℚ)
        / (nS : ℚ),
      pval := pOf gm.1,
      adjP := adj.getD gm.1 1,
      significant := decide (adj.getD gm.1 1 < pThr ∧
        fcThr < (((groupCounts A fg gm.2).map (fun c => (c : ℚ))).sum / (nS : ℚ))
          / (if cmoOf gm.1 = 0 then tinyEps else cmoOf gm.1) ∧
        covThr ≤ (((groupCounts A fg gm.2).filter (fun c => decide (0 < c))).length : ℚ)
          / (nS : ℚ)) : GroupRow })).insertionSort (fun a b => a.adjP ≤ b.adjP)

/-- `df_filtered["Coverage"].max()` (0 on an empty table, unused). -/
def maxCoverage : List GroupRow → ℚ
  | [] => 0
  | h :: t => (t.map (fun r => r.coverage)).foldl max h.coverage

/-- `df_filtered["P_Value"].idxmin()`: the first row attaining the
minimal p-value. -/
def bestRow : List GroupRow → Option GroupRow
  | [] => none
  | h :: t => some (t.foldl (fun b r => if r.pval < b.pval then r else b) h)

/-- `iterative_structure_analysis`, fuel-indexed: each round expands
the current structures; an empty expansion, an empty fold-change
filter, or insufficient maximal coverage halts the loop, returning the
last valid structures; otherwise the loop recurses on the member
structures of the filtered group with the smallest p-value.  Exhausted
fuel (`none`) models a run of more rounds than the fuel allows. -/
noncomputable def iterLoop (mwG : List ℚ → List ℚ → Option ℚ) (A : Adata) (fg : ℕ)
    (fcThr pThr covThr : ℚ) : ℕ → StructMap → StructMap → Option StructMap
  | 0, _, _ => none
  | fuel + 1, extracted, lastValid =>
    let newS := expandStructure A extracted
    if newS = [] then some lastValid
    else
      let grouped := groupGeometry newS
      let dfFil := (analyzeStructureGroups mwG A grouped fg fcThr pThr covThr).filter
        (fun r => decide (fcThr < r.foldChange))
      if dfFil = [] then some lastValid
      else if maxCoverage dfFil < covThr then some lastValid
      else
        match bestRow dfFil with
        | none => some lastValid
        | some best =>
          iterLoop mwG A fg fcThr pThr covThr fuel
            ((grouped.getD best.gid []).filterMap (fun sk =>
              (newS.find? (fun kv => decide (kv.1 = sk))).map (fun kv => (sk, kv.2))))
            ((grouped.getD best.gid []).filterMap (fun sk =>
              (newS.find? (fun kv => decide (kv.1 = sk))).map (fun kv => (sk, kv.2))))

/-- One-step unfolding of the loop, with the round's intermediate
values written out. -/
theorem iterLoop_succ (mwG : List ℚ → List ℚ → Option ℚ) (A : Adata) (fg : ℕ)
    (fcThr pThr covThr : ℚ) (fuel : ℕ) (ex lv : StructMap) :
    iterLoop mwG A fg fcThr pThr covThr (fuel + 1) ex lv =
      (if expandStructure A ex = [] then some lv
       else if (analyzeStructureGroups mwG A (groupGeometry (expandStructure A ex)) fg
           fcThr pThr covThr).filter (fun r => decide (fcThr < r.foldChange)) = [] then some lv
       else if maxCoverage ((analyzeStructureGroups mwG A (groupGeometry (expandStructure A ex))
           fg fcThr pThr covThr).filter (fun r => decide (fcThr < r.foldChange))) < covThr then
         some lv
       else
         match bestRow ((analyzeStructureGroups mwG A (groupGeometry (expandStructure A ex)) fg
             fcThr pThr covThr).filter (fun r => decide (fcThr < r.foldChange))) with
         | none => some lv
         | some best =>
           iterLoop mwG A fg fcThr pThr covThr fuel
             (((groupGeometry (expandStructure A ex)).getD best.gid []).filterMap (fun sk =>
               ((expandStructure A ex).find? (fun kv => decide (kv.1 = sk))).map
                 (fun kv => (sk, kv.2))))
             (((groupGeometry (expandStructure A ex)).getD best.gid []).filterMap (fun sk =>
               ((expandStructure A ex).find? (fun kv => decide (kv.1 = sk))).map
                 (fun kv => (sk, kv.2))))) := rfl

/-- C3: with another round of fuel available, one round of
`iterative_structure_analysis` halts returning its current motif set
unchanged when expanding it yields nothing (in the first round this is
the seed input); and when the expansion is nonempty but no group of the
expanded motifs passes the `Fold_Change > fc_threshold` filter, or the
maximal `Coverage` among the passing groups is below
`coverage_threshold`, it halts returning the previous round's motif set
(here `st`), discarding the current expansion. -/
theorem iteration_halt_conditions (mwG : List ℚ → List ℚ → Option ℚ) (A : Adata)
    (fg : ℕ) (fcThr pThr covThr : ℚ) (fuel : ℕ) (st : StructMap) :
    (expandStructure A st = [] →
       iterLoop mwG A fg fcThr pThr covThr (fuel + 1) st st = some st) ∧
    (expandStructure A st ≠ [] →
     (analyzeStructureGroups mwG A (groupGeometry (expandStructure A st)) fg
         fcThr pThr covThr).filter (fun r => decide (fcThr < r.foldChange)) = [] →
       iterLoop mwG A fg fcThr pThr covThr (fuel + 1) st st = some st) ∧
    (∀ dfFil : List GroupRow, expandStructure A st ≠ [] →
     dfFil = (analyzeStructureGroups mwG A (groupGeometry (expandStructure A st)) fg
         fcThr pThr covThr).filter (fun r => decide (fcThr < r.foldChange)) →
     dfFil ≠ [] → maxCoverage dfFil < covThr →
       iterLoop mwG A fg fcThr pThr covThr (fuel + 1) st st = some st) := by
  refine ⟨?_, ?_, ?_⟩
  · intro he
    rw [iterLoop_succ, if_pos he]
  · intro he hf
    rw [iterLoop_succ, if_neg he, if_pos hf]
  · intro dfFil he hdf hne hcov
    subst hdf
    rw [iterLoop_succ, if_neg he, if_neg hne, if_pos hcov]

/-- A concrete seed structure set for the halting witness. -/
def stW : StructMap := [((0, 0), [((0, 0), 0)])]

theorem iteration_halt_conditions_witness :
    expandStructure [] stW = [] ∧
    iterLoop (fun _ _ => none) [] 0 4 (1 / 20) (3 / 5) 1 stW stW = some stW :=
  ⟨rfl, (iteration_halt_conditions (fun _ _ => none) [] 0 4 (1 / 20) (3 / 5) 0 stW).1 rfl⟩

/-- A well-formed motif of sample `s`: the nodes' coordinates are
pairwise distinct and every node lies on a spot of the sample's dict —
the shape of the 2nd/3rd-order structures the pipeline builds and, as
proved below, preserved by expansion. -/
abbrev GoodStruct (A : Adata) (s : ℕ) (pts : Motif) : Prop :=
  (pts.map (fun v => v.1)).Nodup ∧ ∀ v ∈ pts, (spotLookup A s v.1).isSome = true

/-- A well-formed motif has at most as many nodes as the data has
observation rows: its coordinates are distinct coordinates of one
sample's spot dict. -/
theorem goodStruct_length_le {A : Adata} {s : ℕ} {pts : Motif}
    (h : GoodStruct A s pts) : pts.length ≤ A.length := by
  obtain ⟨hnd, hall⟩ := h
  have hsub : (pts.map (fun v => v.1)) ⊆ (sampleRows A s).map (fun r => (r.row, r.col)) := by
    intro q hq
    obtain ⟨v, hv, hvq⟩ := List.mem_map.mp hq
    have hs : (spotLookup A s q).isSome = true := hvq ▸ hall v hv
    obtain ⟨r, hr, hrq⟩ := mem_sampleCoords.mp (spotLookup_isSome.mp hs)
    exact List.mem_map.mpr ⟨r, hr, hrq⟩
  calc pts.length = (pts.map (fun v => v.1)).length := (List.length_map _ _).symm
    _ ≤ ((sampleRows A s).map (fun r => (r.row, r.col))).length :=
        (hnd.subperm hsub).length_le
    _ = (sampleRows A s).length := List.length_map _ _
    _ ≤ A.length := List.length_filter_le _ _

/-- A potential new node is not yet a point of the motif, and lies on a
spot of the sample's dict. -/
theorem potentialNewNodes_spec {A : Adata} {s : ℕ} {pts : Motif}
    {n : (ℤ × ℤ) × ℕ} (hn : n ∈ potentialNewNodes A s pts) :
    n.1 ∉ pts.map (fun v => v.1) ∧ (spotLookup A s n.1).isSome = true := by
  have hmem := mem_dedupFirst.mp hn
  obtain ⟨p, _, hnp⟩ := List.mem_flatMap.mp hmem
  obtain ⟨d, _, hfd⟩ := List.mem_filterMap.mp hnp
  by_cases hin : (p.1 + d.1, p.2 + d.2) ∈ pts.map (fun v => v.1)
  · rw [if_pos hin] at hfd
    exact absurd hfd (by simp)
  · rw [if_neg hin] at hfd
    obtain ⟨lab, hlab, hlabn⟩ := Option.map_eq_some'.mp hfd
    rw [← hlabn]
    exact ⟨hin, by simp [hlab]⟩

/-- Membership in the `expand_structure` fold: every produced structure
comes from an input structure of the same sample with one potential new
node appended. -/
theorem expand_foldl_mem {A : Adata} (l : List (SKey × Motif)) :
    ∀ (acc : ℕ × StructMap) (kv' : SKey × Motif),
      kv' ∈ (l.foldl (expandStep A) acc).2 →
      kv' ∈ acc.2 ∨ ∃ kv ∈ l, ∃ n ∈ potentialNewNodes A kv.1.1 kv.2,
        kv'.1.1 = kv.1.1 ∧ kv'.2 = kv.2 ++ [n] := by
  induction l with
  | nil => exact fun acc kv' h => Or.inl h
  | cons kv0 t ih =>
    intro acc kv' h
    rw [List.foldl_cons] at h
    rcases ih _ kv' h with hacc | ⟨kv, hkv, n, hn, h1, h2⟩
    · rcases List.mem_append.mp hacc with h1 | h2
      · exact Or.inl h1
      · obtain ⟨ni, hni, hkv'⟩ := List.mem_map.mp h2
        obtain ⟨i, n0⟩ := ni
        have hmn : n0 ∈ potentialNewNodes A kv0.1.1 kv0.2 := by
          have hi := List.mem_enum hni
          exact hi.2 ▸ List.getElem_mem hi.1
        refine Or.inr ⟨kv0, List.mem_cons_self _ _, n0, hmn, ?_, ?_⟩
        · rw [← hkv']
        · rw [← hkv']
    · exact Or.inr ⟨kv, List.mem_cons_of_mem _ hkv, n, hn, h1, h2⟩

/-- Every structure produced by `expand_structure` is an input
structure of the same sample with one potential new node appended. -/
theorem expand_mem {A : Adata} {sd : StructMap} {kv' : SKey × Motif}
    (h : kv' ∈ expandStructure A sd) :
    ∃ kv ∈ sd, ∃ n ∈ potentialNewNodes A kv.1.1 kv.2,
      kv'.1.1 = kv.1.1 ∧ kv'.2 = kv.2 ++ [n] := by
  rw [expandStructure] at h
  by_cases hsd : sd = []
  · rw [if_pos hsd] at h
    exact absurd h (List.not_mem_nil _)
  · rw [if_neg hsd] at h
    rcases expand_foldl_mem sd (0, []) kv' h with habs | hgood
    · exact absurd habs (List.not_mem_nil _)
    · exact hgood

/-- The termination induction: when every current structure is
well-formed with at least `k` nodes, `A.length + 1 + k` rounds of fuel
suffice — each surviving round strictly grows the structures, and a
well-formed structure cannot outgrow the data. -/
theorem iterLoop_isSome (mwG : List ℚ → List ℚ → Option ℚ) (A : Adata) (fg : ℕ)
    (fcThr pThr covThr : ℚ) :
    ∀ fuel k st, (∀ kv ∈ st, GoodStruct A kv.1.1 kv.2) →
      (∀ kv ∈ st, k ≤ kv.2.length) →
      A.length + 2 ≤ fuel + 1 + k →
      (iterLoop mwG A fg fcThr pThr covThr (fuel + 1) st st).isSome = true := by
  intro fuel
  induction fuel with
  | zero =>
    intro k st hgood hlen hbound
    by_cases hst : st = []
    · subst hst
      rw [iterLoop_succ, if_pos (show expandStructure A [] = [] from rfl)]
      rfl
    · obtain ⟨kv0, hkv0⟩ := List.exists_mem_of_ne_nil st hst
      have hk : k ≤ A.length :=
        le_trans (hlen kv0 hkv0) (goodStruct_length_le (hgood kv0 hkv0))
      exact absurd hbound (by omega)
  | succ fuel ih =>
    intro k st hgood hlen hbound
    by_cases he : expandStructure A st = []
    · rw [iterLoop_succ, if_pos he]
      rfl
    · have hnew : ∀ kv' ∈ expandStructure A st,
          GoodStruct A kv'.1.1 kv'.2 ∧ k + 1 ≤ kv'.2.length := by
        intro kv' hm
        obtain ⟨kv, hkv, n, hn, hsam, hpts⟩ := expand_mem hm
        obtain ⟨hnotin, hsome⟩ := potentialNewNodes_spec hn
        obtain ⟨hnd, hall⟩ := hgood kv hkv
        refine ⟨?_, ?_⟩
        · rw [hsam, hpts]
          refine ⟨?_, ?_⟩
          · rw [List.map_append, List.nodup_append]
            refine ⟨hnd, List.nodup_singleton _, ?_⟩
            intro a ha hb
            have hab : a = n.1 := by simpa using hb
            exact hnotin (hab ▸ ha)
          · intro v hv
            rcases List.mem_append.mp hv with h1 | h2
            · exact hall v h1
            · have hvn : v = n := by simpa using h2
              rw [hvn]
              exact hsome
        · rw [hpts, List.length_append]
          have := hlen kv hkv
          simp only [List.length_singleton]
          omega
      have hnext : ∀ (gid : ℕ) (kv'' : SKey × Motif),
          kv'' ∈ ((groupGeometry (expandStructure A st)).getD gid []).filterMap
            (fun sk => ((expandStructure A st).find? (fun kv => decide (kv.1 = sk))).map
              (fun kv => (sk, kv.2))) →
          GoodStruct A kv''.1.1 kv''.2 ∧ k + 1 ≤ kv''.2.length := by
        intro gid kv'' hm
        obtain ⟨sk, _, hfind⟩ := List.mem_filterMap.mp hm
        obtain ⟨kv, hfd, hkv''⟩ := Option.map_eq_some'.mp hfind
        have hmemN := List.mem_of_find?_eq_some hfd
        have hkeq : kv.1 = sk := by
          have hp := List.find?_some hfd
          simpa using hp
        obtain ⟨h1, h2⟩ := hnew kv hmemN
        rw [← hkv'']
        exact ⟨hkeq ▸ h1, h2⟩
      rw [iterLoop_succ, if_neg he]
      by_cases hf : (analyzeStructureGroups mwG A (groupGeometry (expandStructure A st)) fg
          fcThr pThr covThr).filter (fun r => decide (fcThr < r.foldChange)) = []
      · rw [if_pos hf]
        rfl
      · rw [if_neg hf]
        by_cases hcov : maxCoverage ((analyzeStructureGroups mwG A
            (groupGeometry (expandStructure A st)) fg fcThr pThr covThr).filter
            (fun r => decide (fcThr < r.foldChange))) < covThr
        · rw [if_pos hcov]
          rfl
        · rw [if_neg hcov]
          cases hbr : bestRow ((analyzeStructureGroups mwG A
              (groupGeometry (expandStructure A st)) fg fcThr pThr covThr).filter
              (fun r => decide (fcThr < r.foldChange))) with
          | none => rfl
          | some best =>
            exact ih (k + 1) _ (fun kv hm => (hnext best.gid kv hm).1)
              (fun kv hm => (hnext best.gid kv hm).2) (by omega)

/-- C4: for every finite input whose seed structures are well-formed
motifs (distinct spots of one sample), the iterative analysis
terminates within a number of rounds bounded by the grid size —
`A.length + 2` rounds of fuel always suffice, for any Mann–Whitney
oracle and any thresholds — because every motif produced by
`expand_structure` belongs to the same sample as its parent and has
exactly one node more, and a well-formed motif can never have more
nodes than the grid has spots. -/
theorem expansion_termination (mwG : List ℚ → List ℚ → Option ℚ) (A : Adata)
    (fg : ℕ) (fcThr pThr covThr : ℚ) (init : StructMap)
    (hgood : ∀ kv ∈ init, GoodStruct A kv.1.1 kv.2) (fuel : ℕ)
    (hfuel : A.length + 2 ≤ fuel) :
    (∀ (sd : StructMap) (kv' : SKey × Motif), kv' ∈ expandStructure A sd →
        ∃ kv ∈ sd, kv'.1.1 = kv.1.1 ∧ kv'.2.length = kv.2.length + 1) ∧
    (iterLoop mwG A fg fcThr pThr covThr fuel init init).isSome = true := by
  constructor
  · intro sd kv' h
    obtain ⟨kv, hkv, n, _, h1, h2⟩ := expand_mem h
    exact ⟨kv, hkv, h1, by rw [h2, List.length_append]; rfl⟩
  · obtain ⟨fuel', rfl⟩ : ∃ f, fuel = f + 1 := ⟨fuel - 1, by omega⟩
    exact iterLoop_isSome mwG A fg fcThr pThr covThr fuel' 0 init hgood
      (fun kv _ => Nat.zero_le _) (by omega)

/-- A concrete well-formed seed structure set over `exData` for the
termination witness. -/
def initW : StructMap := [((0, 0), [((0, 0), 0), ((0, 2), 1)])]

theorem expansion_termination_witness :
    (∀ kv ∈ initW, GoodStruct exData kv.1.1 kv.2) ∧ exData.length + 2 ≤ 7 ∧
    ((∀ (sd : StructMap) (kv' : SKey × Motif), kv' ∈ expandStructure exData sd →
        ∃ kv ∈ sd, kv'.1.1 = kv.1.1 ∧ kv'.2.length = kv.2.length + 1) ∧
     (iterLoop (fun _ _ => some 1) exData 0 4 (1 / 20) (3 / 5) 7 initW initW).isSome = true) :=
  ⟨by decide, by decide,
   expansion_termination (fun _ _ => some 1) exData 0 4 (1 / 20) (3 / 5) initW
     (by decide) 7 (by decide)⟩

end StNiche
